import Mathlib

/-
  Verification of the codegrinder commit-session lifecycle and problem
  signing logic against a shallow embedding of the Go sources.

  Modelling conventions:
  - Go strings are byte sequences; we model them as `List (Fin 256)`.
  - Go `time.Time` values are modelled as `Int` counts of nanoseconds
    (Go time carries wall-clock nanoseconds; differences and comparisons
    used in the sources are nanosecond arithmetic).
  - Go `int`, `int64` are modelled as `Int` (no overflow occurs in the
    modelled code paths: values are database ids, step numbers and times).
  - The database is modelled as in-memory lists of rows; `meddler.Save`
    inserts a row with a fresh primary key when the key is 0 and updates
    the row with the matching key otherwise.
-/

namespace CodeGrinder

/-- A byte, the element of a Go string. -/
abbrev Byte := Fin 256

/-- A Go string, modelled as its byte sequence. -/
abbrev Str := List Byte

/-- Build a byte string from numeric byte codes. -/
def bs (l : List Nat) : Str :=
  l.map (fun n => (⟨n % 256, Nat.mod_lt n (by decide)⟩ : Byte))

/- ------------------------------------------------------------------
   Server-side commit model: src/src/codegrinder/commits.go
   ------------------------------------------------------------------ -/

/-- commits.go line 15: limit on the number of transcript events. -/
def transcriptEventCountLimit : Nat := 500

/-- commits.go line 16: limit on total transcript data (1e5 bytes). -/
def transcriptDataLimit : Nat := 100000

/-- commits.go line 17: `20 * time.Minute`, in nanoseconds. -/
def openCommitTimeout : Int := 20 * 60 * 1000000000

/-- The Commit row (commits.go lines 20-34).  The report card is a grading
result whose contents are never inspected by the handler beyond a nil
check, so it is modelled as an optional opaque payload; transcript events
are likewise opaque payloads.  Score is a float64 in Go that the handler
only copies, modelled as Int. -/
structure Commit where
  ID : Int
  AssignmentID : Int
  ProblemStepNumber : Int
  UserID : Int
  Action : Str
  Closed : Bool
  Comment : Str
  Score : Int
  ReportCard : Option Str
  Submission : List (Str × Str)
  Transcript : List Str
  CreatedAt : Int
  UpdatedAt : Int
deriving DecidableEq, Repr

/-- An assignment row, as far as the commit handler consults it
(`SELECT * FROM assignments WHERE id = $1 AND user_id = $2`). -/
structure Assignment where
  ID : Int
  UserID : Int
deriving DecidableEq, Repr

/-- The database state seen by the commit handler: the assignments and
commits tables, plus the next fresh primary key for inserts. -/
structure ServerState where
  assignments : List Assignment
  commits : List Commit
  nextID : Int
deriving DecidableEq, Repr

/-- The WHERE clause of the assignment lookup in PostUserAssignmentCommit
(commits.go line 244). -/
def assignmentQuery (assignmentID userID : Int) (a : Assignment) : Bool :=
  a.ID == assignmentID && a.UserID == userID

/-- The WHERE clause of the open-commit lookup (commits.go line 260):
`NOT closed AND assignment_id = $1`. -/
def openCommitQuery (assignmentID : Int) (c : Commit) : Bool :=
  !c.Closed && c.AssignmentID == assignmentID

/-- meddler.Update: overwrite the row whose primary key matches. -/
def dbUpdate (st : ServerState) (c : Commit) : ServerState :=
  { st with commits := st.commits.map (fun x => if x.ID = c.ID then c else x) }

/-- meddler.Save: insert with a fresh primary key when ID = 0, otherwise
update the existing row.  Returns the saved row (with its assigned key). -/
def dbSave (st : ServerState) (c : Commit) : ServerState × Commit :=
  if c.ID = 0 then
    let c2 := { c with ID := st.nextID }
    ({ st with commits := st.commits ++ [c2], nextID := st.nextID + 1 }, c2)
  else (dbUpdate st c, c)

/-- The shared tail of PostUserAssignmentCommit (commits.go lines
289-294): stamp ownership, apply grading finality, stamp UpdatedAt. -/
def resolveCommit (assignmentID userID now : Int) (commit1 : Commit) : Commit :=
  let commit2 := { commit1 with AssignmentID := assignmentID, UserID := userID }
  let commit3 :=
    if commit2.ReportCard.isSome ∨ commit2.Transcript ≠ [] then
      { commit2 with Closed := true }
    else commit2
  { commit3 with UpdatedAt := now }

/-- Resolve the incoming commit and persist it (commits.go lines 289-301). -/
def finishAndSave (st1 : ServerState) (assignmentID userID now : Int)
    (commit1 : Commit) : ServerState × Commit :=
  dbSave st1 (resolveCommit assignmentID userID now commit1)

/-- PostUserAssignmentCommit (commits.go lines 234-304), the commit
session manager.  The handler runs inside one transaction; errors abort
with no state change, which the Except result captures.  In the Go code
the stale-open-commit branch sets `openCommit = nil` and falls through to
the `openCommit != nil` test; here the two resulting control paths are
written out directly. -/
def postUserAssignmentCommit (st : ServerState) (currentUserID assignmentID : Int)
    (commit : Commit) (now : Int) : Except String (ServerState × Commit) :=
  match st.assignments.find? (assignmentQuery assignmentID currentUserID) with
  | none => .error "no assignment found for user"
  | some _ =>
    if commit.Submission = [] then
      .error "commit does not contain any submission files"
    else
      .ok <|
        match st.commits.find? (openCommitQuery assignmentID) with
        | some oc =>
          -- close the old commit?  (commits.go lines 269-279)
          if now - oc.UpdatedAt > openCommitTimeout ∨ oc.ProblemStepNumber ≠ commit.ProblemStepNumber then
            finishAndSave (dbUpdate st { oc with Closed := true, UpdatedAt := now })
              assignmentID currentUserID now { commit with ID := 0, CreatedAt := now }
          else
            -- update an existing commit (commits.go lines 282-284)
            finishAndSave st assignmentID currentUserID now
              { commit with ID := oc.ID, CreatedAt := oc.CreatedAt }
        | none =>
          finishAndSave st assignmentID currentUserID now
            { commit with ID := 0, CreatedAt := now }

/-- The open commits of one assignment, in table order. -/
def openFor (st : ServerState) (assignmentID : Int) : List Commit :=
  st.commits.filter (openCommitQuery assignmentID)

/- Concrete fixtures used by witnesses and counterexamples. -/

/-- A one-file submission mapping: "main" maps to "hi". -/
def sampleSubmission : List (Str × Str) := [(bs [109, 97, 105, 110], bs [104, 105])]

/-- An incoming commit payload for step 1 with one submission file. -/
def baseCommit : Commit :=
  { ID := 0, AssignmentID := 0, ProblemStepNumber := 1, UserID := 0, Action := []
    Closed := false, Comment := [], Score := 0, ReportCard := none
    Submission := sampleSubmission, Transcript := [], CreatedAt := 0, UpdatedAt := 0 }

/-- A stored open commit for assignment 7, user 3, step 1. -/
def openFixture : Commit :=
  { baseCommit with ID := 5, AssignmentID := 7, UserID := 3, CreatedAt := 100, UpdatedAt := 100 }

/-- Assignment 7 owned by user 3. -/
def assignmentFixture : Assignment := { ID := 7, UserID := 3 }

/-- Server state with one open commit for assignment 7. -/
def stateWithOpen : ServerState :=
  { assignments := [assignmentFixture], commits := [openFixture], nextID := 6 }

/-- Server state with no commits at all. -/
def stateNoCommits : ServerState :=
  { assignments := [assignmentFixture], commits := [], nextID := 1 }

/-- The commit stored when baseCommit is merged into openFixture at time 200. -/
def mergedStored : Commit :=
  { baseCommit with ID := 5, AssignmentID := 7, UserID := 3, CreatedAt := 100, UpdatedAt := 200 }

/-- The state after that merge. -/
def mergedState : ServerState := { stateWithOpen with commits := [mergedStored] }

/-- An incoming commit whose transcript holds 501 events, one over the
declared transcriptEventCountLimit. -/
def oversizedCommit : Commit :=
  { baseCommit with Transcript := List.replicate 501 (bs [101]) }

/-- An incoming commit carrying a (non-empty) report card. -/
def gradedCommit : Commit := { baseCommit with ReportCard := some (bs [65]) }

/-- The row stored for gradedCommit posted to the empty state. -/
def gradedStored : Commit :=
  { gradedCommit with ID := 1, AssignmentID := 7, UserID := 3, Closed := true }

/-- The state after storing gradedStored. -/
def gradedState : ServerState :=
  { stateNoCommits with commits := [gradedStored], nextID := 2 }

/-- The row stored for oversizedCommit posted to the empty state. -/
def oversizedStored : Commit :=
  { oversizedCommit with ID := 1, AssignmentID := 7, UserID := 3, Closed := true }

/-- The state after storing oversizedStored. -/
def oversizedState : ServerState :=
  { stateNoCommits with commits := [oversizedStored], nextID := 2 }

/- ------------------------------------------------------------------
   Shared problem model: src/types/problem.go
   ------------------------------------------------------------------ -/

/-- The Problem row (problem.go lines 48-57).  Timestamps are nanosecond
counts as in the commit model. -/
structure Problem where
  ID : Int
  Unique : Str
  Note : Str
  ProblemType : Str
  Tags : List Str
  Options : List Str
  CreatedAt : Int
  UpdatedAt : Int
deriving DecidableEq, Repr

/-- A ProblemStep (problem.go lines 63-70).  Files is a Go
map[string]string, modelled as an association list with distinct names;
its order stands for the (unspecified) Go map iteration order.  Weight is
a float64 in Go; the modelled code only defaults it, compares it with 0,
and renders it with a formatter that is injective on float64 values, so
it is modelled as Int with the decimal rendering as the formatter. -/
structure ProblemStep where
  ProblemID : Int
  Step : Int
  Note : Str
  Instructions : Str
  Weight : Int
  Files : List (Str × Str)
deriving DecidableEq, Repr

/-- strings.Split(s, "/") on a byte string (47 is the slash byte). -/
def goSplitSlash : Str → List Str
  | [] => [[]]
  | b :: rest =>
    if b = (47 : Byte) then [] :: goSplitSlash rest
    else
      match goSplitSlash rest with
      | [] => [[b]]
      | p :: ps => (b :: p) :: ps

/-- The root-level file names a step introduces (problem.go lines
226-230): names of the step files with no path separator
(`len(strings.Split(name, "/")) == 1`). -/
def rootNames (step : ProblemStep) : Finset Str :=
  ((step.Files.map Prod.fst).filter (fun n => (goSplitSlash n).length == 1)).toFinset

/-- The loop body state of GetStepWhitelists: carry the previous list
forward, add this step's root-level names. -/
def getStepWhitelistsAux (prev : Finset Str) : List ProblemStep → List (Finset Str)
  | [] => []
  | step :: rest =>
    let m := prev ∪ rootNames step
    m :: getStepWhitelistsAux m rest

/-- GetStepWhitelists (problem.go lines 212-235): the per-step cumulative
whitelists of commit file names.  The Go map[string]bool sets are
modelled as finite sets. -/
def GetStepWhitelists (steps : List ProblemStep) : List (Finset Str) :=
  getStepWhitelistsAux ∅ steps

/- Whitelist fixtures for the spec example (two steps, one root file and
one file inside a subdirectory). -/

/-- "main.py" -/
def mainPy : Str := bs [109, 97, 105, 110, 46, 112, 121]

/-- "tests/test_main.py" -/
def testsTestMainPy : Str :=
  bs [116, 101, 115, 116, 115, 47, 116, 101, 115, 116, 95, 109, 97, 105, 110, 46, 112, 121]

/-- Step 1 of the spec example: introduces main.py at the root. -/
def exampleStep1 : ProblemStep :=
  { ProblemID := 1, Step := 1, Note := bs [110], Instructions := []
    Weight := 1, Files := [(mainPy, bs [120])] }

/-- Step 2 of the spec example: introduces tests/test_main.py. -/
def exampleStep2 : ProblemStep :=
  { exampleStep1 with Step := 2, Files := [(testsTestMainPy, bs [121])] }

/-- The two steps of the spec example. -/
def exampleSteps : List ProblemStep := [exampleStep1, exampleStep2]

/- ------------------------------------------------------------------
   Client-side file gatherer: src/unnamed/part_000 (gather, lines 78-123)
   ------------------------------------------------------------------ -/

/-- A filesystem entry as seen by filepath.Walk: a named file (regular or
not) with contents, or a named directory with children. -/
inductive FsNode where
  | file (name : Str) (regular : Bool) (contents : Str)
  | dir (name : Str) (children : List FsNode)

/-- The walk callback of gather (part_000 lines 79-111) applied to the
entries of the problem directory, in walk order.  Returns the collected
file mapping and the names skipped with a warning.  Per filepath.Walk
semantics, returning filepath.SkipDir for a directory entry (line 89)
skips that directory and all of its contents, so the walk never descends
into subdirectories; non-regular files (line 91) and the metadata dot
file (line 97) are skipped silently; whitelisted names are read into the
mapping (lines 101-106); other names produce a warning (line 108). -/
def gatherWalk (whitelist : List Str) (dotfileName : Str) :
    List FsNode → List (Str × Str) × List Str
  | [] => ([], [])
  | .dir _ _ :: rest => gatherWalk whitelist dotfileName rest
  | .file name regular contents :: rest =>
    if regular = false then gatherWalk whitelist dotfileName rest
    else if name = dotfileName then gatherWalk whitelist dotfileName rest
    else if name ∈ whitelist then
      let r := gatherWalk whitelist dotfileName rest
      ((name, contents) :: r.1, r.2)
    else
      let r := gatherWalk whitelist dotfileName rest
      (r.1, name :: r.2)

/-- gather after the walk (part_000 lines 115-123): fail fatally listing
every missing whitelisted name unless the collected file count equals the
whitelist size. -/
def gather (whitelist : List Str) (dotfileName : Str) (entries : List FsNode) :
    Except (List Str) (List (Str × Str)) :=
  let r := gatherWalk whitelist dotfileName entries
  if r.1.length = whitelist.length then .ok r.1
  else .error (whitelist.filter (fun n => !((r.1.map Prod.fst).contains n)))

/- Gather fixtures. -/

/-- "inner.py" -/
def innerPy : Str := bs [105, 110, 110, 101, 114, 46, 112, 121]

/-- "scratch.txt" -/
def scratchTxt : Str := bs [115, 99, 114, 97, 116, 99, 104, 46, 116, 120, 116]

/-- ".grind" (the metadata file name; its constant is declared outside
src, but gather only ever compares entry names against it). -/
def dotGrind : Str := bs [46, 103, 114, 105, 110, 100]

/-- "tests" -/
def testsName : Str := bs [116, 101, 115, 116, 115]

/-- A problem directory: main.py, the metadata file, an untracked
scratch.txt, and a tests subdirectory holding the whitelisted inner.py. -/
def entriesFix : List FsNode :=
  [.file mainPy true (bs [120]),
   .file dotGrind true (bs [123]),
   .file scratchTxt true (bs [122]),
   .dir testsName [.file innerPy true (bs [121])]]

/-- A whitelist naming the root file and the file inside the subdirectory.
The client whitelist (DotFileInfo) is a JSON map of names; it is modelled
as its list of (distinct) names. -/
def wlFix : List Str := [mainPy, innerPy]

/-- The root-level entries of a directory listing: (name, regular,
contents) of each plain file, directories dropped.  Used to state what
the walk (which never descends) can see. -/
def rootEntries : List FsNode → List (Str × Bool × Str)
  | [] => []
  | .file n r c :: rest => (n, r, c) :: rootEntries rest
  | .dir _ _ :: rest => rootEntries rest

/- ------------------------------------------------------------------
   Problem signature canonicalization: ComputeSignature
   (problem.go lines 139-166)

   ComputeSignature builds a url.Values multimap, encodes it with the
   canonical URL query-string encoding (sorted keys, percent escaping),
   and MACs the encoded byte string.  The `encode` helper called on line
   161 is repository code that is not under src; following the spec
   (section 4.3 steps 3-4) it is modelled as the standard url.Values
   encoding: keys sorted, every key and value percent-escaped, pairs
   written `k=v` and joined with ampersands.  The claims are about the
   canonical encoded string (the MAC input); HMAC-SHA256 itself is an
   external primitive and is not modelled.
   ------------------------------------------------------------------ -/

/-- Go url.QueryEscape leaves alphanumerics and -_.~ alone
(shouldEscape in net/url). -/
def isUnreserved (b : Byte) : Bool :=
  (48 ≤ b.val && b.val ≤ 57) || (65 ≤ b.val && b.val ≤ 90) ||
  (97 ≤ b.val && b.val ≤ 122) ||
  b.val == 45 || b.val == 46 || b.val == 95 || b.val == 126

/-- Uppercase hex digit of a nibble, as a byte. -/
def hexDigit (n : Fin 16) : Byte :=
  ⟨if n.val < 10 then 48 + n.val else 55 + n.val, by have := n.isLt; split <;> omega⟩

/-- Go url.QueryEscape on one byte: unreserved bytes stay, space becomes
a plus sign, everything else becomes a percent escape. -/
def escByte (b : Byte) : Str :=
  if isUnreserved b then [b]
  else if b = (32 : Byte) then [(43 : Byte)]
  else [(37 : Byte),
        hexDigit ⟨b.val / 16, by have := b.isLt; omega⟩,
        hexDigit ⟨b.val % 16, by exact Nat.mod_lt _ (by omega)⟩]

/-- Go url.QueryEscape on a byte string. -/
def queryEscape (s : Str) : Str := s.flatMap escByte

/-- Decimal digits, by structural recursion on a fuel bound (n+1 fuel
always suffices since n/10 < n). -/
def decNatAux : Nat → Nat → Str
  | 0, _ => []
  | fuel + 1, n =>
    if h : n < 10 then [⟨48 + n, by omega⟩]
    else decNatAux fuel (n / 10) ++
      [⟨48 + n % 10, by have := Nat.mod_lt n (by omega : 0 < 10); omega⟩]

/-- Decimal digits of a natural number (strconv base 10). -/
def decNat (n : Nat) : Str := decNatAux (n + 1) n

/-- strconv.FormatInt base 10 of an int64. -/
def decInt (i : Int) : Str :=
  if i < 0 then (45 : Byte) :: decNat (-i).toNat else decNat i.toNat

/-- Reconstruct a number from decimal digits (for injectivity). -/
def valOfDigits (s : Str) : Nat :=
  s.foldl (fun acc d => 10 * acc + (d.val - 48)) 0

/-- Go t.Round(time.Second) on a nanosecond count, expressed in seconds:
the nearest whole second, halves rounding away from zero. -/
def roundSecond (t : Int) : Int :=
  if t ≥ 0 then (t + 500000000) / 1000000000
  else -(((-t) + 500000000) / 1000000000)

/-- The canonical rendering of one rounded timestamp (problem.go lines
149-150: `Round(time.Second).UTC().Format(time.RFC3339)`).  The RFC3339
rendering of a whole-second UTC time determines and is determined by the
second count, so this external stdlib formatter is modelled as an
injective rendering of the second count. -/
def fmtTime (t : Int) : Str := decInt (roundSecond t)

/-- A url.Values multimap: keys with ordered value lists.  Keys are kept
in insertion order (the Go map order is irrelevant because the encoder
sorts keys). -/
abbrev MultiMap := List (Str × List Str)

/-- url.Values.Add: append one value under a key. -/
def addValue (k v : Str) : MultiMap → MultiMap
  | [] => [(k, [v])]
  | (k2, vs) :: rest =>
    if k2 = k then (k2, vs ++ [v]) :: rest else (k2, vs) :: addValue k v rest

/-- Direct slice assignment `v[key] = values`. -/
def setValues (k : Str) (vs : List Str) : MultiMap → MultiMap
  | [] => [(k, vs)]
  | (k2, vs2) :: rest =>
    if k2 = k then (k2, vs) :: rest else (k2, vs2) :: setValues k vs rest

/-- Look up the values stored under a key (empty when absent). -/
def lookupValues (k : Str) : MultiMap → List Str
  | [] => []
  | (k2, vs) :: rest => if k2 = k then vs else lookupValues k rest

/-- Byte-wise lexicographic order on strings (sort.Strings). -/
def lexLe : Str → Str → Bool
  | [], _ => true
  | _ :: _, [] => false
  | a :: as2, b :: bs2 =>
    if a.val < b.val then true else if b.val < a.val then false else lexLe as2 bs2

/-- The keys of a multimap, in insertion order. -/
def keysOf (m : MultiMap) : List Str := m.map Prod.fst

/-- One `k=v` token of the encoding. -/
def encPair (k v : Str) : Str := queryEscape k ++ (61 : Byte) :: queryEscape v

/-- Join tokens with ampersands (the & separator precedes every token
except the first). -/
def joinAmp : List Str → Str
  | [] => []
  | [t] => t
  | t :: t2 :: rest => t ++ (38 : Byte) :: joinAmp (t2 :: rest)

/-- The `k=v` pairs of the encoding, sorted by key, values in stored
order.  The keys are distinct, so any correct sort produces the sorted
key list of sort.Strings; a structurally recursive insertion sort is
used so that concrete encodings evaluate inside the kernel. -/
def pairsOf (m : MultiMap) : List (Str × Str) :=
  ((keysOf m).insertionSort (fun a b => lexLe a b = true)).flatMap
    (fun k => (lookupValues k m).map (fun v => (k, v)))

/-- Modelled from the spec: the `encode` helper applied to the signature
multimap on problem.go line 161 is not under src; per spec section 4.3 it
is the canonical url.Values encoding: keys sorted, each key and value
percent-escaped, `k=v` tokens joined with `&`. -/
def encodeValues (m : MultiMap) : Str :=
  joinAmp ((pairsOf m).map (fun p => encPair p.1 p.2))

/- The keys of the signature multimap. -/

/-- "id" -/
def keyId : Str := bs [105, 100]

/-- "unique" -/
def keyUnique : Str := bs [117, 110, 105, 113, 117, 101]

/-- "note" -/
def keyNote : Str := bs [110, 111, 116, 101]

/-- "problemType" -/
def keyProblemType : Str := bs [112, 114, 111, 98, 108, 101, 109, 84, 121, 112, 101]

/-- "tags" -/
def keyTags : Str := bs [116, 97, 103, 115]

/-- "options" -/
def keyOptions : Str := bs [111, 112, 116, 105, 111, 110, 115]

/-- "createdAt" -/
def keyCreatedAt : Str := bs [99, 114, 101, 97, 116, 101, 100, 65, 116]

/-- "updatedAt" -/
def keyUpdatedAt : Str := bs [117, 112, 100, 97, 116, 101, 100, 65, 116]

/-- "step-" -/
def stepDash : Str := bs [115, 116, 101, 112, 45]

/-- "note" (tail of a step note key) -/
def noteTail : Str := bs [110, 111, 116, 101]

/-- "weight" (tail of a step weight key) -/
def weightTail : Str := bs [119, 101, 105, 103, 104, 116]

/-- "file-" (head of a step file key tail) -/
def fileDash : Str := bs [102, 105, 108, 101, 45]

/-- `fmt.Sprintf("step-%d-note", n)` -/
def stepNoteKey (n : Int) : Str := stepDash ++ decInt n ++ (45 : Byte) :: noteTail

/-- `fmt.Sprintf("step-%d-weight", n)` -/
def stepWeightKey (n : Int) : Str := stepDash ++ decInt n ++ (45 : Byte) :: weightTail

/-- `fmt.Sprintf("step-%d-file-%s", n, name)` -/
def stepFileKey (n : Int) (name : Str) : Str :=
  stepDash ++ decInt n ++ (45 : Byte) :: (fileDash ++ name)

/-- The per-step additions of ComputeSignature (problem.go lines
151-157): the step note, the formatted weight, and every step file.
File iteration order follows the association list (Go map iteration
order is unspecified; the encoder makes the result order independent). -/
def addStepValues (st : ProblemStep) (m : MultiMap) : MultiMap :=
  let m1 := addValue (stepNoteKey st.Step) st.Note m
  let m2 := addValue (stepWeightKey st.Step) (decInt st.Weight) m1
  st.Files.foldl (fun m3 f => addValue (stepFileKey st.Step f.1) f.2 m3) m2

/-- The signature multimap of ComputeSignature (problem.go lines
140-157). -/
def baseValues (p : Problem) : MultiMap :=
  let m0 : MultiMap := []
  let m1 := addValue keyId (decInt p.ID) m0
  let m2 := addValue keyUnique p.Unique m1
  let m3 := addValue keyNote p.Note m2
  let m4 := addValue keyProblemType p.ProblemType m3
  let m5 := setValues keyTags p.Tags m4
  let m6 := setValues keyOptions p.Options m5
  let m7 := addValue keyCreatedAt (fmtTime p.CreatedAt) m6
  addValue keyUpdatedAt (fmtTime p.UpdatedAt) m7

def signatureValues (p : Problem) (steps : List ProblemStep) : MultiMap :=
  steps.foldl (fun m st => addStepValues st m) (baseValues p)

/-- Values at one key of a flat pair list (used to read the encoding
back). -/
def valuesAt (k : Str) (ps : List (Str × Str)) : List Str :=
  (ps.filter (fun p => p.1 == k)).map Prod.snd

/-- The canonical encoded byte string that ComputeSignature MACs
(problem.go line 161). -/
def signedData (p : Problem) (steps : List ProblemStep) : Str :=
  encodeValues (signatureValues p steps)

/-- Values of one file name in a step file mapping (a singleton for a
well-formed map). -/
def fileLookup (name : Str) (files : List (Str × Str)) : List Str :=
  (files.filter (fun f => f.1 == name)).map Prod.snd

/-- Well-formed steps: step n sits at position n-1 (problem.go
Normalize numbers steps 1..len). -/
def WFSteps (steps : List ProblemStep) : Prop :=
  ∀ i (h : i < steps.length), (steps.get ⟨i, h⟩).Step = (i : Int) + 1

/-- A concrete problem: id 1, unique "p1", note "n", type "t". -/
def exampleProblem1 : Problem :=
  { ID := 1, Unique := bs [112, 49], Note := bs [110], ProblemType := bs [116]
    Tags := [], Options := [], CreatedAt := 0, UpdatedAt := 0 }

/-- The same problem with CreatedAt one nanosecond later. -/
def exampleProblem2 : Problem := { exampleProblem1 with CreatedAt := 1 }

/-- Bytes trimmed by strings.TrimSpace: tab, LF, VT, FF, CR and space
(the further Unicode white space code points are multi-byte sequences
that do not arise in the ASCII identifiers at issue). -/
def isSpaceByte (b : Byte) : Bool :=
  b.val = 9 || b.val = 10 || b.val = 11 || b.val = 12 || b.val = 13 || b.val = 32

/-- Drop leading white space bytes. -/
def trimLeft : Str → Str
  | [] => []
  | b :: rest => if isSpaceByte b then trimLeft rest else b :: rest

/-- strings.TrimSpace on a byte string: drop leading and trailing white
space. -/
def trimSpace (s : Str) : Str := (trimLeft (trimLeft s).reverse).reverse

/-- Continuation byte test for UTF-8 (0x80..0xBF). -/
def contByte (b : Byte) : Bool := 128 ≤ b.val && b.val ≤ 191

/-- Go utf8.ValidString on a byte string: ASCII, two-byte sequences
C2..DF, three-byte sequences E0/E1..EC/ED/EE..EF with the overlong and
surrogate ranges excluded, four-byte sequences F0/F1..F3/F4 capped at
U+10FFFF. -/
def validUTF8 : Str → Bool
  | [] => true
  | b :: rest =>
    if b.val ≤ 127 then validUTF8 rest
    else if 194 ≤ b.val && b.val ≤ 223 then
      match rest with
      | c1 :: rest1 => contByte c1 && validUTF8 rest1
      | _ => false
    else if b.val = 224 then
      match rest with
      | c1 :: c2 :: rest2 =>
        (160 ≤ c1.val && c1.val ≤ 191) && contByte c2 && validUTF8 rest2
      | _ => false
    else if 225 ≤ b.val && b.val ≤ 236 then
      match rest with
      | c1 :: c2 :: rest2 => contByte c1 && contByte c2 && validUTF8 rest2
      | _ => false
    else if b.val = 237 then
      match rest with
      | c1 :: c2 :: rest2 =>
        (128 ≤ c1.val && c1.val ≤ 159) && contByte c2 && validUTF8 rest2
      | _ => false
    else if 238 ≤ b.val && b.val ≤ 239 then
      match rest with
      | c1 :: c2 :: rest2 => contByte c1 && contByte c2 && validUTF8 rest2
      | _ => false
    else if b.val = 240 then
      match rest with
      | c1 :: c2 :: c3 :: rest3 =>
        (144 ≤ c1.val && c1.val ≤ 191) && contByte c2 && contByte c3 && validUTF8 rest3
      | _ => false
    else if 241 ≤ b.val && b.val ≤ 243 then
      match rest with
      | c1 :: c2 :: c3 :: rest3 =>
        contByte c1 && contByte c2 && contByte c3 && validUTF8 rest3
      | _ => false
    else if b.val = 244 then
      match rest with
      | c1 :: c2 :: c3 :: rest3 =>
        (128 ≤ c1.val && c1.val ≤ 143) && contByte c2 && contByte c3 && validUTF8 rest3
      | _ => false
    else false

/-- strings.Replace with old = CRLF, new = LF, n = -1: left-to-right
non-overlapping replacement. -/
def replaceCRLF : Str → Str
  | [] => []
  | [b] => [b]
  | b :: c :: rest =>
    if b = (13 : Byte) && c = (10 : Byte) then (10 : Byte) :: replaceCRLF rest
    else b :: replaceCRLF (c :: rest)

/-- strings.Contains for the two-byte pattern space-LF. -/
def containsSpaceNL : Str → Bool
  | [] => false
  | [_] => false
  | b :: c :: rest => (b = (32 : Byte) && c = (10 : Byte)) || containsSpaceNL (c :: rest)

/-- strings.Replace with old = space-LF, new = LF, n = -1. -/
def replaceSpaceNL : Str → Str
  | [] => []
  | [b] => [b]
  | b :: c :: rest =>
    if b = (32 : Byte) && c = (10 : Byte) then (10 : Byte) :: replaceSpaceNL rest
    else b :: replaceSpaceNL (c :: rest)

/-- The loop in fixLineEndings that replaces space-LF with LF until no
occurrence remains.  Each pass on a string that still contains the
pattern removes at least one byte, so fuel = length always suffices and
the fuelled loop computes the same fixed point as the source loop. -/
def stripSpaceNLAux : Nat → Str → Str
  | 0, s => s
  | fuel + 1, s => if containsSpaceNL s then stripSpaceNLAux fuel (replaceSpaceNL s) else s

/-- strings.HasSuffix for the pattern LF-LF. -/
def endsNLNL (s : Str) : Bool :=
  match s.reverse with
  | a :: b :: _ => a = (10 : Byte) && b = (10 : Byte)
  | _ => false

/-- The loop that drops one trailing byte while the string ends in two
LFs.  Each pass drops one byte, so fuel = length suffices. -/
def trimNLAux : Nat → Str → Str
  | 0, s => s
  | fuel + 1, s => if endsNLNL s then trimNLAux fuel s.dropLast else s

/-- problem.go fixLineEndings: normalise CRLF to LF, append one LF,
strip spaces before newlines, collapse trailing blank lines, and map a
single LF to the empty string. -/
def fixLineEndings (s : Str) : Str :=
  let s1 := replaceCRLF s ++ [(10 : Byte)]
  let s2 := stripSpaceNLAux s1.length s1
  let s3 := trimNLAux s2.length s2
  if s3 = [(10 : Byte)] then [] else s3

/-- problem.go fixNewLines: like fixLineEndings but keeps spaces before
newlines. -/
def fixNewLines (s : Str) : Str :=
  let s1 := replaceCRLF s ++ [(10 : Byte)]
  let s2 := trimNLAux s1.length s1
  if s2 = [(10 : Byte)] then [] else s2

/-- The ProblemStepDirectoryWhitelist map of problem.go: in, out, _doc. -/
def dirWhitelist (d : Str) : Bool :=
  d == bs [105, 110] || d == bs [111, 117, 116] || d == bs [95, 100, 111, 99]

/-- One file of the cleaning loop of ProblemStep.Normalize: files
outside whitelisted directories with valid UTF-8 contents get full line
ending fixes, whitelisted-directory files with valid UTF-8 contents
only get newline fixes, and invalid UTF-8 contents pass unchanged. -/
def cleanFile (name contents : Str) : Str :=
  let parts := goSplitSlash name
  if (decide (parts.length < 2) || !dirWhitelist parts.headI) && validUTF8 contents then
    fixLineEndings contents
  else if validUTF8 contents then fixNewLines contents
  else contents

/-- Go map access on a file mapping: the first value stored under the
name, if any. -/
def mapGet (name : Str) (files : List (Str × Str)) : Option Str :=
  (files.find? (fun f => f.1 == name)).map Prod.snd

/-- The byte string _doc/index.html. -/
def docIndexHtml : Str :=
  bs [95, 100, 111, 99, 47, 105, 110, 100, 101, 120, 46, 104, 116, 109, 108]

/-- The byte string _doc/index.md. -/
def docIndexMd : Str :=
  bs [95, 100, 111, 99, 47, 105, 110, 100, 101, 120, 46, 109, 100]

/-- Error outcomes of ProblemStep.Normalize and BuildInstructions, with
the fmt.Errorf message texts abstracted to codes. -/
inductive StepErr where
  | missingNote : StepErr
  | noDocumentation : StepErr
  | docNotUTF8 : StepErr
deriving DecidableEq, Repr

/-- problem.go BuildInstructions, abstracted to its error behaviour:
instructions come from _doc/index.html if present, else from
_doc/index.md (the blackfriday markdown rendering and the html image
embedding pass, which cannot fail on a parsed document, are abstracted
to the identity), else the call fails; a selected document that is not
valid UTF-8 also fails. -/
def buildInstructions (st : ProblemStep) : Except StepErr Str :=
  match mapGet docIndexHtml st.Files with
  | some data =>
    if validUTF8 data then Except.ok data else Except.error StepErr.docNotUTF8
  | none =>
    match mapGet docIndexMd st.Files with
    | some data =>
      if validUTF8 data then Except.ok data else Except.error StepErr.docNotUTF8
    | none => Except.error StepErr.noDocumentation

/-- problem.go lines 176-205, ProblemStep.Normalize(n): sets the step
number and trims the note unconditionally, then fails on an empty note;
then builds instructions and fails if that fails; then defaults a
non-positive weight to 1 and cleans every file.  The pair carries the
mutated step (Go mutates through the pointer, so mutations made before
an error persist) together with the error result. -/
def stepNormalize (n : Int) (st : ProblemStep) : ProblemStep × Option StepErr :=
  let st1 := { st with Step := n, Note := trimSpace st.Note }
  if st1.Note = [] then (st1, some StepErr.missingNote)
  else
    match buildInstructions st1 with
    | Except.error e => (st1, some e)
    | Except.ok instr =>
      let st2 := { st1 with Instructions := instr }
      let st3 := if st2.Weight ≤ (0 : Int) then { st2 with Weight := 1 } else st2
      ({ st3 with Files := st3.Files.map (fun q => (q.1, cleanFile q.1 q.2)) }, none)

/-- Error outcomes of Problem.Normalize, message texts abstracted to
codes. -/
inductive NormErr where
  | uniqueEmpty : NormErr
  | uniqueNotURLFriendly : NormErr
  | noteEmpty : NormErr
  | noSteps : NormErr
  | createdAtInvalid : NormErr
  | updatedAtInvalid : NormErr
deriving DecidableEq, Repr

/-- time.Date(2016, 1, 1, 0, 0, 0, 0, time.UTC) in nanoseconds since
the Unix epoch. -/
def BeginningOfTime : Int := 1451606400000000000

/-- problem.go lines 86-137, Problem.Normalize(now, steps): trim and
check the unique ID (nonempty and fixed by url.QueryEscape), trim and
check the note, trim and sort the tags, trim the options, reject an
empty step list, normalise every step while DISCARDING the per-step
error results (the loop at lines 123-125 ignores the return value of
step.Normalize), then range check the timestamps.  Returns the mutated
problem and steps with the error result. -/
def problemNormalize (now : Int) (p : Problem) (steps : List ProblemStep) :
    (Problem × List ProblemStep) × Option NormErr :=
  let p1 := { p with Unique := trimSpace p.Unique }
  if p1.Unique = [] then ((p1, steps), some NormErr.uniqueEmpty)
  else if queryEscape p1.Unique ≠ p1.Unique then
    ((p1, steps), some NormErr.uniqueNotURLFriendly)
  else
    let p2 := { p1 with Note := trimSpace p1.Note }
    if p2.Note = [] then ((p2, steps), some NormErr.noteEmpty)
    else
      let p3 := { p2 with
        Tags := (p2.Tags.map trimSpace).insertionSort (fun a b => lexLe a b = true)
        Options := p2.Options.map trimSpace }
      if steps = [] then ((p3, steps), some NormErr.noSteps)
      else
        let steps2 := steps.mapIdx (fun n st => (stepNormalize ((n : Int) + 1) st).1)
        if p3.CreatedAt < BeginningOfTime ∨ now < p3.CreatedAt then
          ((p3, steps2), some NormErr.createdAtInvalid)
        else if p3.UpdatedAt < p3.CreatedAt ∨ now < p3.UpdatedAt then
          ((p3, steps2), some NormErr.updatedAtInvalid)
        else ((p3, steps2), none)

/-- A step whose note is only white space: its normalisation fails. -/
def badStep : ProblemStep :=
  { exampleStep1 with Note := [(32 : Byte)] }

/-- A problem whose own fields all pass the Normalize checks at
now = BeginningOfTime. -/
def normProblem : Problem :=
  { ID := 1, Unique := bs [112, 49], Note := bs [110], ProblemType := bs [116]
    Tags := [], Options := [], CreatedAt := BeginningOfTime, UpdatedAt := BeginningOfTime }

/- ------------------------------------------------------------------
   Lemmas about the commit session manager
   ------------------------------------------------------------------ -/

theorem resolveCommit_ID (aid uid now : Int) (c : Commit) :
    (resolveCommit aid uid now c).ID = c.ID := by
  simp only [resolveCommit]; split <;> rfl

theorem resolveCommit_CreatedAt (aid uid now : Int) (c : Commit) :
    (resolveCommit aid uid now c).CreatedAt = c.CreatedAt := by
  simp only [resolveCommit]; split <;> rfl

theorem resolveCommit_UpdatedAt (aid uid now : Int) (c : Commit) :
    (resolveCommit aid uid now c).UpdatedAt = now := by
  simp only [resolveCommit]

theorem resolveCommit_Submission (aid uid now : Int) (c : Commit) :
    (resolveCommit aid uid now c).Submission = c.Submission := by
  simp only [resolveCommit]; split <;> rfl

theorem resolveCommit_Action (aid uid now : Int) (c : Commit) :
    (resolveCommit aid uid now c).Action = c.Action := by
  simp only [resolveCommit]; split <;> rfl

theorem resolveCommit_Comment (aid uid now : Int) (c : Commit) :
    (resolveCommit aid uid now c).Comment = c.Comment := by
  simp only [resolveCommit]; split <;> rfl

theorem resolveCommit_ReportCard (aid uid now : Int) (c : Commit) :
    (resolveCommit aid uid now c).ReportCard = c.ReportCard := by
  simp only [resolveCommit]; split <;> rfl

theorem resolveCommit_Transcript (aid uid now : Int) (c : Commit) :
    (resolveCommit aid uid now c).Transcript = c.Transcript := by
  simp only [resolveCommit]; split <;> rfl

theorem resolveCommit_Closed_of (aid uid now : Int) (c : Commit)
    (h : c.ReportCard.isSome ∨ c.Transcript ≠ []) :
    (resolveCommit aid uid now c).Closed = true := by
  simp only [resolveCommit]
  rw [if_pos (by simpa using h)]

theorem dbSave_insert (st : ServerState) (c : Commit) (h : c.ID = 0) :
    dbSave st c =
      ({ st with
          commits := st.commits ++ [{ c with ID := st.nextID }],
          nextID := st.nextID + 1 },
        { c with ID := st.nextID }) := by
  simp [dbSave, h]

theorem dbSave_update (st : ServerState) (c : Commit) (h : c.ID ≠ 0) :
    dbSave st c = (dbUpdate st c, c) := by
  simp [dbSave, h]

/-- Elimination principle for a successful run of the commit handler:
it validated the submission and took exactly one of the three branches
of the session state machine. -/
theorem postCommit_ok_cases {st st2 : ServerState} {uid aid : Int} {c stored : Commit} {now : Int}
    (hres : postUserAssignmentCommit st uid aid c now = .ok (st2, stored)) :
    c.Submission ≠ [] ∧
    ((∃ oc, st.commits.find? (openCommitQuery aid) = some oc ∧
        ((now - oc.UpdatedAt > openCommitTimeout ∨ oc.ProblemStepNumber ≠ c.ProblemStepNumber) ∧
          (st2, stored) = finishAndSave (dbUpdate st { oc with Closed := true, UpdatedAt := now })
              aid uid now { c with ID := 0, CreatedAt := now } ∨
         ¬(now - oc.UpdatedAt > openCommitTimeout ∨ oc.ProblemStepNumber ≠ c.ProblemStepNumber) ∧
          (st2, stored) = finishAndSave st aid uid now
              { c with ID := oc.ID, CreatedAt := oc.CreatedAt })) ∨
      (st.commits.find? (openCommitQuery aid) = none ∧
        (st2, stored) = finishAndSave st aid uid now { c with ID := 0, CreatedAt := now })) := by
  unfold postUserAssignmentCommit at hres
  split at hres
  · exact absurd hres (by simp)
  · split at hres
    · exact absurd hres (by simp)
    · rename_i hs
      rw [Except.ok.injEq] at hres
      refine ⟨hs, ?_⟩
      split at hres
      · rename_i oc hoc
        left
        refine ⟨oc, hoc, ?_⟩
        split at hres
        · rename_i hstale
          exact Or.inl ⟨hstale, hres.symm⟩
        · rename_i hstale
          exact Or.inr ⟨hstale, hres.symm⟩
      · rename_i hoc
        right
        exact ⟨hoc, hres.symm⟩

/-- C1: a submission that finds an open commit which is idle past the
20-minute timeout or sits at a different step closes that commit
(Closed := true, UpdatedAt := now, persisted) and stores the incoming
submission as a fresh row (saved with ID = 0, so the store assigns the
next fresh key) whose CreatedAt is the current time. -/
theorem postCommit_staleOpen_closes_and_creates
    (st st2 : ServerState) (uid aid : Int) (c oc stored : Commit) (now : Int)
    (hoc : st.commits.find? (openCommitQuery aid) = some oc)
    (hstale : now - oc.UpdatedAt > openCommitTimeout ∨ oc.ProblemStepNumber ≠ c.ProblemStepNumber)
    (hres : postUserAssignmentCommit st uid aid c now = .ok (st2, stored)) :
    ({ oc with Closed := true, UpdatedAt := now } : Commit) ∈ st2.commits ∧
    stored.ID = st.nextID ∧
    stored.CreatedAt = now ∧
    stored.UpdatedAt = now ∧
    stored.Submission = c.Submission ∧
    stored ∈ st2.commits := by
  obtain ⟨hs, hcases⟩ := postCommit_ok_cases hres
  rcases hcases with ⟨oc2, hoc2, hbr⟩ | ⟨hnone, _⟩
  · rw [hoc] at hoc2
    injection hoc2 with h
    subst h
    rcases hbr with ⟨_, heq⟩ | ⟨hlive, _⟩
    · rw [finishAndSave.eq_def,
        dbSave_insert _ _ (by rw [resolveCommit_ID])] at heq
      rw [Prod.ext_iff] at heq
      obtain ⟨h1, h2⟩ := heq
      subst h1; subst h2
      refine ⟨List.mem_append_left _ ?_, ?_, ?_, ?_, ?_, ?_⟩
      · exact List.mem_map.mpr ⟨oc, List.mem_of_find?_eq_some hoc, by simp⟩
      · rfl
      · simp [resolveCommit_CreatedAt]
      · simp [resolveCommit_UpdatedAt]
      · simp [resolveCommit_Submission]
      · exact List.mem_append_right _ (by simp)
    · exact absurd hstale hlive
  · rw [hoc] at hnone; exact absurd hnone (by simp)

/-- C1 witness: at the concrete stale fixture the theorem applies. -/
theorem postCommit_staleOpen_witness :
    ({ openFixture with Closed := true, UpdatedAt := 1300000000100 } : Commit) ∈
      ((postUserAssignmentCommit stateWithOpen 3 7 baseCommit 1300000000100).toOption.map
        Prod.fst |>.getD stateNoCommits).commits := by
  have hres : postUserAssignmentCommit stateWithOpen 3 7 baseCommit 1300000000100 =
      .ok
        ({ stateWithOpen with
            commits :=
              [{ openFixture with Closed := true, UpdatedAt := 1300000000100 },
               { baseCommit with
                  ID := 6, AssignmentID := 7, UserID := 3,
                  CreatedAt := 1300000000100, UpdatedAt := 1300000000100 }],
            nextID := 7 },
         { baseCommit with
            ID := 6, AssignmentID := 7, UserID := 3,
            CreatedAt := 1300000000100, UpdatedAt := 1300000000100 }) := by rfl
  have h := postCommit_staleOpen_closes_and_creates stateWithOpen _ 3 7 baseCommit openFixture _
    1300000000100 (by decide) (Or.inl (by decide)) hres
  rw [hres]
  exact h.1

/-- C2: a submission that finds an open commit that is neither idle past
the timeout nor at a different step is merged into it: the stored row
keeps the open commit ID and original CreatedAt, while the submission
files, action, comment, report card, and transcript come from the
incoming commit, and UpdatedAt is stamped with the current time. -/
theorem postCommit_merge_keeps_identity
    (st st2 : ServerState) (uid aid : Int) (c oc stored : Commit) (now : Int)
    (hoc : st.commits.find? (openCommitQuery aid) = some oc)
    (hlive : ¬(now - oc.UpdatedAt > openCommitTimeout ∨ oc.ProblemStepNumber ≠ c.ProblemStepNumber))
    (hid : oc.ID ≠ 0)
    (hres : postUserAssignmentCommit st uid aid c now = .ok (st2, stored)) :
    stored.ID = oc.ID ∧
    stored.CreatedAt = oc.CreatedAt ∧
    stored.UpdatedAt = now ∧
    stored.Submission = c.Submission ∧
    stored.Action = c.Action ∧
    stored.Comment = c.Comment ∧
    stored.ReportCard = c.ReportCard ∧
    stored.Transcript = c.Transcript ∧
    st2.commits = st.commits.map (fun x => if x.ID = oc.ID then stored else x) := by
  obtain ⟨hs, hcases⟩ := postCommit_ok_cases hres
  rcases hcases with ⟨oc2, hoc2, hbr⟩ | ⟨hnone, _⟩
  · rw [hoc] at hoc2
    injection hoc2 with h
    subst h
    rcases hbr with ⟨hstale, _⟩ | ⟨_, heq⟩
    · exact absurd hstale hlive
    · rw [finishAndSave.eq_def,
        dbSave_update _ _ (by simpa [resolveCommit_ID] using hid)] at heq
      rw [Prod.ext_iff] at heq
      obtain ⟨h1, h2⟩ := heq
      subst h1; subst h2
      refine ⟨?_, ?_, ?_, ?_, ?_, ?_, ?_, ?_, ?_⟩
      · simp [resolveCommit_ID]
      · simp [resolveCommit_CreatedAt]
      · simp [resolveCommit_UpdatedAt]
      · simp [resolveCommit_Submission]
      · simp [resolveCommit_Action]
      · simp [resolveCommit_Comment]
      · simp [resolveCommit_ReportCard]
      · simp [resolveCommit_Transcript]
      · simp [dbUpdate, resolveCommit_ID]
  · rw [hoc] at hnone; exact absurd hnone (by simp)

/-- C2 witness: a second submission 100ns later merges into the open
fixture commit, keeping its id 5 and CreatedAt 100. -/
theorem postCommit_merge_witness :
    postUserAssignmentCommit stateWithOpen 3 7 baseCommit 200 = .ok (mergedState, mergedStored) ∧
    mergedStored.ID = openFixture.ID ∧
    mergedStored.CreatedAt = openFixture.CreatedAt ∧
    mergedStored.UpdatedAt = 200 := by
  have hres : postUserAssignmentCommit stateWithOpen 3 7 baseCommit 200 =
      .ok (mergedState, mergedStored) := by rfl
  have h := postCommit_merge_keeps_identity stateWithOpen mergedState 3 7 baseCommit
    openFixture mergedStored 200 (by rfl) (by decide) (by decide) hres
  exact ⟨hres, h.1, h.2.1, h.2.2.1⟩

/-- After the one open commit of an assignment is closed by dbUpdate, the
assignment has no open commits left. -/
theorem openFor_eq_single (st : ServerState) (aid : Int) (oc : Commit)
    (hoc : st.commits.find? (openCommitQuery aid) = some oc)
    (hopen : (openFor st aid).length ≤ 1) :
    openFor st aid = [oc] := by
  have hmem : oc ∈ openFor st aid :=
    List.mem_filter.mpr ⟨List.mem_of_find?_eq_some hoc, List.find?_some hoc⟩
  have hlen : (openFor st aid).length = 1 :=
    Nat.le_antisymm hopen (List.length_pos_of_mem hmem)
  obtain ⟨a, ha⟩ := List.length_eq_one.mp hlen
  rw [ha] at hmem
  simp only [List.mem_singleton] at hmem
  rw [ha, hmem]

theorem openFor_dbUpdate_close (st : ServerState) (aid : Int) (oc : Commit) (now : Int)
    (hoc : st.commits.find? (openCommitQuery aid) = some oc)
    (hopen : (openFor st aid).length ≤ 1) :
    openFor (dbUpdate st { oc with Closed := true, UpdatedAt := now }) aid = [] := by
  have hsingle := openFor_eq_single st aid oc hoc hopen
  rw [openFor, List.filter_eq_nil_iff]
  intro x hx
  simp only [dbUpdate, List.mem_map] at hx
  obtain ⟨y, hy, hyx⟩ := hx
  by_cases hyi : y.ID = oc.ID
  · rw [if_pos hyi] at hyx
    subst hyx
    simp [openCommitQuery]
  · rw [if_neg hyi] at hyx
    subst hyx
    intro hq
    have hmem : y ∈ openFor st aid := List.mem_filter.mpr ⟨hy, hq⟩
    rw [hsingle] at hmem
    simp only [List.mem_singleton] at hmem
    exact hyi (by rw [hmem])

/-- C3: with submissions for an assignment processed serially, one run of
the commit handler preserves the invariant that at most one open commit
exists for that assignment (the database is assumed well formed: distinct
nonzero primary keys). -/
theorem postCommit_preserves_at_most_one_open
    (st st2 : ServerState) (uid aid : Int) (c stored : Commit) (now : Int)
    (hnodup : (st.commits.map Commit.ID).Nodup)
    (hnz : ∀ x ∈ st.commits, x.ID ≠ 0)
    (hopen : (openFor st aid).length ≤ 1)
    (hres : postUserAssignmentCommit st uid aid c now = .ok (st2, stored)) :
    (openFor st2 aid).length ≤ 1 := by
  have hnd : st.commits.Nodup := List.Nodup.of_map Commit.ID hnodup
  obtain ⟨hs, hcases⟩ := postCommit_ok_cases hres
  rw [openFor, ← List.countP_eq_length_filter]
  rcases hcases with ⟨oc, hoc, ⟨hstale, heq⟩ | ⟨hlive, heq⟩⟩ | ⟨hnone, heq⟩
  · -- stale branch: close the open commit, insert a fresh row
    rw [finishAndSave.eq_def, dbSave_insert _ _ (by rw [resolveCommit_ID])] at heq
    rw [Prod.ext_iff] at heq
    obtain ⟨h1, h2⟩ := heq
    subst h1
    have hA : List.countP (openCommitQuery aid)
        (dbUpdate st { oc with Closed := true, UpdatedAt := now }).commits = 0 := by
      rw [List.countP_eq_length_filter]
      have hcl := openFor_dbUpdate_close st aid oc now hoc hopen
      rw [openFor] at hcl
      rw [hcl]
      rfl
    have key : ∀ v : Commit, List.countP (openCommitQuery aid)
        ((dbUpdate st { oc with Closed := true, UpdatedAt := now }).commits ++ [v]) ≤ 1 := by
      intro v
      rw [List.countP_append, hA]
      have hB := List.countP_le_length (p := openCommitQuery aid) (l := [v])
      simp only [List.length_cons, List.length_nil] at hB
      omega
    exact key _
  · -- merge branch: replace the single open row
    rw [finishAndSave.eq_def,
      dbSave_update _ _ (by
        simpa [resolveCommit_ID] using hnz oc (List.mem_of_find?_eq_some hoc))] at heq
    rw [Prod.ext_iff] at heq
    obtain ⟨h1, h2⟩ := heq
    subst h1
    have hsingle := openFor_eq_single st aid oc hoc hopen
    simp only [dbUpdate, List.countP_map]
    have hmono : List.countP
        ((openCommitQuery aid) ∘ (fun x =>
          if x.ID = (resolveCommit aid uid now { c with ID := oc.ID, CreatedAt := oc.CreatedAt }).ID
          then resolveCommit aid uid now { c with ID := oc.ID, CreatedAt := oc.CreatedAt }
          else x)) st.commits ≤ List.countP (· == oc) st.commits := by
      apply List.countP_mono_left
      intro x hx hq
      simp only [Function.comp_apply] at hq
      by_cases hxi : x.ID = oc.ID
      · have : x = oc := List.inj_on_of_nodup_map hnodup hx (List.mem_of_find?_eq_some hoc) hxi
        simpa using this
      · rw [if_neg (by simpa [resolveCommit_ID] using hxi)] at hq
        have hmem : x ∈ openFor st aid := List.mem_filter.mpr ⟨hx, hq⟩
        rw [hsingle] at hmem
        simp only [List.mem_singleton] at hmem
        simpa using hmem
    have hcount : List.countP (· == oc) st.commits ≤ 1 := by
      rw [← List.count_eq_countP]
      exact List.nodup_iff_count_le_one.mp hnd oc
    exact le_trans hmono hcount
  · -- no open commit: insert a fresh row
    rw [finishAndSave.eq_def, dbSave_insert _ _ (by rw [resolveCommit_ID])] at heq
    rw [Prod.ext_iff] at heq
    obtain ⟨h1, h2⟩ := heq
    subst h1
    have hA : List.countP (openCommitQuery aid) st.commits = 0 :=
      List.countP_eq_zero.mpr (List.find?_eq_none.mp hnone)
    have key : ∀ v : Commit,
        List.countP (openCommitQuery aid) (st.commits ++ [v]) ≤ 1 := by
      intro v
      rw [List.countP_append, hA]
      have hB := List.countP_le_length (p := openCommitQuery aid) (l := [v])
      simp only [List.length_cons, List.length_nil] at hB
      omega
    exact key _

/-- C3 witness: the invariant holds after the concrete merge run. -/
theorem postCommit_invariant_witness :
    postUserAssignmentCommit stateWithOpen 3 7 baseCommit 200 = .ok (mergedState, mergedStored) ∧
    (openFor mergedState 7).length ≤ 1 :=
  ⟨by rfl,
   postCommit_preserves_at_most_one_open stateWithOpen mergedState 3 7 baseCommit
     mergedStored 200 (by decide) (by decide) (by decide) (by rfl)⟩

/-- C4: any successful submission carrying a report card or transcript
events is stored with Closed = true, in every branch of the session
state machine. -/
theorem postCommit_grading_closes
    (st st2 : ServerState) (uid aid : Int) (c stored : Commit) (now : Int)
    (hrc : c.ReportCard.isSome ∨ c.Transcript ≠ [])
    (hres : postUserAssignmentCommit st uid aid c now = .ok (st2, stored)) :
    stored.Closed = true := by
  obtain ⟨-, hcases⟩ := postCommit_ok_cases hres
  have hclosed : ∀ (st1 : ServerState) (c1 : Commit),
      c1.ReportCard = c.ReportCard → c1.Transcript = c.Transcript →
      (finishAndSave st1 aid uid now c1).2.Closed = true := by
    intro st1 c1 h1 h2
    have hc : (resolveCommit aid uid now c1).Closed = true :=
      resolveCommit_Closed_of _ _ _ _ (by rw [h1, h2]; exact hrc)
    rw [finishAndSave.eq_def]
    by_cases h0 : (resolveCommit aid uid now c1).ID = 0
    · rw [dbSave_insert _ _ h0]
      simpa using hc
    · rw [dbSave_update _ _ h0]
      exact hc
  rcases hcases with ⟨oc, hoc, ⟨hst, heq⟩ | ⟨hst, heq⟩⟩ | ⟨hn, heq⟩ <;>
    (rw [Prod.ext_iff] at heq
     obtain ⟨h1, h2⟩ := heq
     subst h2
     exact hclosed _ _ rfl rfl)

/-- C4 witness: the graded fixture commit is stored closed. -/
theorem postCommit_grading_witness :
    postUserAssignmentCommit stateNoCommits 3 7 gradedCommit 0 = .ok (gradedState, gradedStored) ∧
    gradedStored.Closed = true :=
  ⟨by rfl,
   postCommit_grading_closes stateNoCommits gradedState 3 7 gradedCommit gradedStored 0
     (Or.inl (by rfl)) (by rfl)⟩

/-- C9: the declared transcript limits are not enforced by the handler: a
commit with 501 transcript events (over transcriptEventCountLimit = 500)
is persisted unchanged. -/
theorem postCommit_stores_oversized_transcript :
    postUserAssignmentCommit stateNoCommits 3 7 oversizedCommit 0 =
      .ok (oversizedState, oversizedStored) ∧
    oversizedStored ∈ oversizedState.commits ∧
    transcriptEventCountLimit < oversizedStored.Transcript.length := by
  refine ⟨by rfl, List.mem_singleton.mpr rfl, ?_⟩
  show (500 : Nat) < (List.replicate 501 (bs [101])).length
  rw [List.length_replicate]
  omega

/- ------------------------------------------------------------------
   Step whitelists (C6, C7)
   ------------------------------------------------------------------ -/

theorem getStepWhitelistsAux_succ (prev : Finset Str) (steps : List ProblemStep)
    (i : Nat) (w1 w2 : Finset Str) (s : ProblemStep)
    (h1 : (getStepWhitelistsAux prev steps)[i]? = some w1)
    (h2 : (getStepWhitelistsAux prev steps)[i+1]? = some w2)
    (h3 : steps[i+1]? = some s) :
    w2 = w1 ∪ rootNames s := by
  induction steps generalizing prev i with
  | nil => simp [getStepWhitelistsAux] at h1
  | cons st rest ih =>
    cases i with
    | zero =>
      simp only [getStepWhitelistsAux, List.getElem?_cons_zero, List.getElem?_cons_succ,
        Option.some.injEq] at h1 h2 h3
      cases rest with
      | nil => simp [getStepWhitelistsAux] at h2
      | cons st2 rest2 =>
        simp only [getStepWhitelistsAux, List.getElem?_cons_zero, Option.some.injEq] at h2 h3
        subst h1; subst h2; subst h3
        rfl
    | succ j =>
      simp only [getStepWhitelistsAux, List.getElem?_cons_succ] at h1 h2 h3
      exact ih _ _ h1 h2 h3

/-- C6: the whitelist of each step is the whitelist of the previous step
united with the root-level names (no path separator) introduced by that
step, and is therefore a superset of the previous whitelist. -/
theorem getStepWhitelists_cumulative (steps : List ProblemStep) (i : Nat)
    (w1 w2 : Finset Str) (s : ProblemStep)
    (h1 : (GetStepWhitelists steps)[i]? = some w1)
    (h2 : (GetStepWhitelists steps)[i+1]? = some w2)
    (h3 : steps[i+1]? = some s) :
    w2 = w1 ∪ rootNames s ∧ w1 ⊆ w2 := by
  have h := getStepWhitelistsAux_succ ∅ steps i w1 w2 s h1 h2 h3
  subst h
  exact ⟨rfl, Finset.subset_union_left⟩

/-- C6 witness: the recurrence evaluated on the two example steps. -/
theorem getStepWhitelists_cumulative_witness :
    ({mainPy} : Finset Str) = {mainPy} ∪ rootNames exampleStep2 ∧
    ({mainPy} : Finset Str) ⊆ {mainPy} :=
  getStepWhitelists_cumulative exampleSteps 0 {mainPy} {mainPy} exampleStep2
    (by decide) (by decide) (by decide)

/-- C7 counterexample: in the spec example the computed whitelist of step
2 is {main.py}, not {main.py, tests/test_main.py}: tests/test_main.py
contains a path separator and is never added. -/
theorem whitelist_example_step2_refutes :
    (GetStepWhitelists exampleSteps)[1]? = some {mainPy} ∧
    ({mainPy} : Finset Str) ≠ {mainPy, testsTestMainPy} := by
  exact ⟨by decide, by decide⟩

/-- C7 (amended): the whitelist of step 1 is exactly {main.py} and the
whitelist of step 2 is again exactly {main.py}. -/
theorem whitelist_example_exact :
    GetStepWhitelists exampleSteps = [{mainPy}, {mainPy}] := by decide

/- ------------------------------------------------------------------
   File gatherer (C8)
   ------------------------------------------------------------------ -/

theorem gatherWalk_mem_files (wl : List Str) (dot : Str) :
    ∀ (entries : List FsNode) (n c : Str), (n, c) ∈ (gatherWalk wl dot entries).1 →
      (n, true, c) ∈ rootEntries entries ∧ n ∈ wl ∧ n ≠ dot := by
  intro entries
  induction entries with
  | nil => intro n c h; simp [gatherWalk] at h
  | cons e rest ih =>
    intro n c h
    cases e with
    | dir nm ch =>
      simp only [gatherWalk] at h
      have hr := ih n c h
      exact ⟨by simp only [rootEntries]; exact hr.1, hr.2⟩
    | file nm reg cont =>
      simp only [gatherWalk] at h
      by_cases hreg : reg = false
      · rw [if_pos hreg] at h
        subst hreg
        have hr := ih n c h
        refine ⟨?_, hr.2⟩
        simp only [rootEntries, List.mem_cons]
        exact Or.inr hr.1
      · have hreg2 : reg = true := by
          cases reg with
          | false => exact absurd rfl hreg
          | true => rfl
        subst hreg2
        rw [if_neg hreg] at h
        by_cases hdot : nm = dot
        · rw [if_pos hdot] at h
          have hr := ih n c h
          refine ⟨?_, hr.2⟩
          simp only [rootEntries, List.mem_cons]
          exact Or.inr hr.1
        · rw [if_neg hdot] at h
          by_cases hwl : nm ∈ wl
          · rw [if_pos hwl] at h
            simp only [List.mem_cons] at h
            rcases h with heq | h2
            · simp only [Prod.mk.injEq] at heq
              obtain ⟨hn, hc⟩ := heq
              subst hn; subst hc
              refine ⟨?_, hwl, hdot⟩
              simp only [rootEntries]
              exact List.mem_cons_self _ _
            · have hr := ih n c h2
              refine ⟨?_, hr.2⟩
              simp only [rootEntries, List.mem_cons]
              exact Or.inr hr.1
          · rw [if_neg hwl] at h
            have hr := ih n c h
            refine ⟨?_, hr.2⟩
            simp only [rootEntries, List.mem_cons]
            exact Or.inr hr.1

theorem gatherWalk_complete (wl : List Str) (dot : Str) :
    ∀ (entries : List FsNode) (n c : Str), (n, true, c) ∈ rootEntries entries → n ≠ dot →
      ((n ∈ wl → (n, c) ∈ (gatherWalk wl dot entries).1) ∧
       (n ∉ wl → n ∈ (gatherWalk wl dot entries).2)) := by
  intro entries
  induction entries with
  | nil => intro n c h; simp [rootEntries] at h
  | cons e rest ih =>
    intro n c h hdot
    cases e with
    | dir nm ch =>
      simp only [rootEntries] at h
      simpa only [gatherWalk] using ih n c h hdot
    | file nm reg cont =>
      simp only [rootEntries, List.mem_cons] at h
      rcases h with heq | h2
      · simp only [Prod.mk.injEq] at heq
        obtain ⟨hn, hreg, hc⟩ := heq
        subst hn
        subst hc
        subst hreg
        constructor
        · intro hwl
          simp only [gatherWalk]
          rw [if_neg (by simp : ¬(true = false)), if_neg hdot, if_pos hwl]
          exact List.mem_cons_self _ _
        · intro hwl
          simp only [gatherWalk]
          rw [if_neg (by simp : ¬(true = false)), if_neg hdot, if_neg hwl]
          exact List.mem_cons_self _ _
      · have hr := ih n c h2 hdot
        constructor
        · intro hwl
          simp only [gatherWalk]
          by_cases hregf : reg = false
          · rw [if_pos hregf]; exact hr.1 hwl
          · rw [if_neg hregf]
            by_cases hnmdot : nm = dot
            · rw [if_pos hnmdot]; exact hr.1 hwl
            · rw [if_neg hnmdot]
              by_cases hnwl : nm ∈ wl
              · rw [if_pos hnwl]
                exact List.mem_cons_of_mem _ (hr.1 hwl)
              · rw [if_neg hnwl]
                exact hr.1 hwl
        · intro hwl
          simp only [gatherWalk]
          by_cases hregf : reg = false
          · rw [if_pos hregf]; exact hr.2 hwl
          · rw [if_neg hregf]
            by_cases hnmdot : nm = dot
            · rw [if_pos hnmdot]; exact hr.2 hwl
            · rw [if_neg hnmdot]
              by_cases hnwl : nm ∈ wl
              · rw [if_pos hnwl]
                exact hr.2 hwl
              · rw [if_neg hnwl]
                exact List.mem_cons_of_mem _ (hr.2 hwl)

theorem gatherWalk_mem_warned (wl : List Str) (dot : Str) :
    ∀ (entries : List FsNode) (n : Str), n ∈ (gatherWalk wl dot entries).2 →
      (∃ c, (n, true, c) ∈ rootEntries entries) ∧ n ∉ wl ∧ n ≠ dot := by
  intro entries
  induction entries with
  | nil => intro n h; simp [gatherWalk] at h
  | cons e rest ih =>
    intro n h
    cases e with
    | dir nm ch =>
      simp only [gatherWalk] at h
      have hr := ih n h
      obtain ⟨⟨c, hc⟩, h2⟩ := hr
      exact ⟨⟨c, by simp only [rootEntries]; exact hc⟩, h2⟩
    | file nm reg cont =>
      simp only [gatherWalk] at h
      by_cases hreg : reg = false
      · rw [if_pos hreg] at h
        obtain ⟨⟨c, hc⟩, h2⟩ := ih n h
        exact ⟨⟨c, by simp only [rootEntries, List.mem_cons]; exact Or.inr hc⟩, h2⟩
      · have hreg2 : reg = true := by
          cases reg with
          | false => exact absurd rfl hreg
          | true => rfl
        subst hreg2
        rw [if_neg hreg] at h
        by_cases hdot : nm = dot
        · rw [if_pos hdot] at h
          obtain ⟨⟨c, hc⟩, h2⟩ := ih n h
          exact ⟨⟨c, by simp only [rootEntries, List.mem_cons]; exact Or.inr hc⟩, h2⟩
        · rw [if_neg hdot] at h
          by_cases hwl : nm ∈ wl
          · rw [if_pos hwl] at h
            obtain ⟨⟨c, hc⟩, h2⟩ := ih n h
            exact ⟨⟨c, by simp only [rootEntries, List.mem_cons]; exact Or.inr hc⟩, h2⟩
          · rw [if_neg hwl] at h
            simp only [List.mem_cons] at h
            rcases h with heq | h2
            · subst heq
              exact ⟨⟨cont, by simp only [rootEntries]; exact List.mem_cons_self _ _⟩,
                hwl, hdot⟩
            · obtain ⟨⟨c, hc⟩, h3⟩ := ih n h2
              exact ⟨⟨c, by simp only [rootEntries, List.mem_cons]; exact Or.inr hc⟩, h3⟩

/-- C8 (amended): the gatherer enumerates only the regular files sitting
directly in the problem directory (every subdirectory is skipped without
descending, per the filepath.SkipDir return), excludes the metadata
file, adds whitelisted names to the result mapping, and skips every
other name with a warning rather than an error. -/
theorem gather_root_regular_whitelist (wl : List Str) (dot : Str) (entries : List FsNode) :
    (∀ n c, (n, c) ∈ (gatherWalk wl dot entries).1 →
      (n, true, c) ∈ rootEntries entries ∧ n ∈ wl ∧ n ≠ dot) ∧
    (∀ n c, (n, true, c) ∈ rootEntries entries → n ≠ dot →
      ((n ∈ wl → (n, c) ∈ (gatherWalk wl dot entries).1) ∧
       (n ∉ wl → n ∈ (gatherWalk wl dot entries).2))) ∧
    (∀ n, n ∈ (gatherWalk wl dot entries).2 →
      (∃ c, (n, true, c) ∈ rootEntries entries) ∧ n ∉ wl ∧ n ≠ dot) :=
  ⟨gatherWalk_mem_files wl dot entries,
   gatherWalk_complete wl dot entries,
   gatherWalk_mem_warned wl dot entries⟩

/-- C8 counterexample: inner.py is whitelisted and present as a regular
file inside the tests subdirectory, yet the walk result contains only the
root file main.py: subdirectories are never enumerated. -/
theorem gather_skips_subdirectory_file :
    innerPy ∈ wlFix ∧
    FsNode.dir testsName [FsNode.file innerPy true (bs [121])] ∈ entriesFix ∧
    (gatherWalk wlFix dotGrind entriesFix).1 = [(mainPy, bs [120])] ∧
    (gatherWalk wlFix dotGrind entriesFix).2 = [scratchTxt] :=
  ⟨by decide,
   List.mem_cons_of_mem _ (List.mem_cons_of_mem _ (List.mem_cons_of_mem _
     (List.mem_cons_self _ _))),
   by decide, by decide⟩

/-- C8 witness: the characterization applied at the fixture directory:
the whitelisted root file is gathered, the untracked root file is warned. -/
theorem gather_root_regular_whitelist_witness :
    (mainPy, bs [120]) ∈ (gatherWalk wlFix dotGrind entriesFix).1 ∧
    scratchTxt ∈ (gatherWalk wlFix dotGrind entriesFix).2 := by
  have h := gather_root_regular_whitelist wlFix dotGrind entriesFix
  constructor
  · exact (h.2.1 mainPy (bs [120]) (by decide) (by decide)).1 (by decide)
  · exact (h.2.1 scratchTxt (bs [122]) (by decide) (by decide)).2 (by decide)

/- ------------------------------------------------------------------
   Signature encoding: escaping and rendering lemmas (C5)
   ------------------------------------------------------------------ -/

theorem hexDigit_ne_sep : ∀ n : Fin 16, hexDigit n ≠ (38 : Byte) ∧ hexDigit n ≠ (61 : Byte) := by
  decide

theorem isUnreserved_ne : ∀ b : Byte, isUnreserved b = true → b ≠ (37 : Byte) ∧ b ≠ (43 : Byte) := by
  intro b h
  constructor <;> (intro he; subst he; exact absurd h (by decide))

theorem escByte_sep_free : ∀ b : Byte, ∀ x ∈ escByte b, x ≠ (38 : Byte) ∧ x ≠ (61 : Byte) := by
  intro b x hx
  rw [escByte] at hx
  by_cases hu : isUnreserved b
  · rw [if_pos hu] at hx
    simp only [List.mem_singleton] at hx
    subst hx
    constructor <;> (intro he; subst he; exact absurd hu (by decide))
  · rw [if_neg hu] at hx
    by_cases hs : b = (32 : Byte)
    · rw [if_pos hs] at hx
      simp only [List.mem_singleton] at hx
      subst hx
      exact (by decide)
    · rw [if_neg hs] at hx
      simp only [List.mem_cons, List.mem_singleton, List.not_mem_nil, or_false] at hx
      rcases hx with hx | hx | hx <;> subst hx
      · exact (by decide)
      · exact hexDigit_ne_sep _
      · exact hexDigit_ne_sep _

theorem escByte_ne_nil : ∀ b : Byte, escByte b ≠ [] := by
  intro b
  rw [escByte]
  by_cases hu : isUnreserved b
  · rw [if_pos hu]; exact List.cons_ne_nil _ _
  · rw [if_neg hu]
    by_cases hs : b = (32 : Byte)
    · rw [if_pos hs]; exact List.cons_ne_nil _ _
    · rw [if_neg hs]; exact List.cons_ne_nil _ _

theorem hexDigit_inj : ∀ n m : Fin 16, hexDigit n = hexDigit m → n = m := by
  decide

theorem queryEscape_nil : queryEscape [] = [] := rfl

theorem queryEscape_cons (b : Byte) (s : Str) :
    queryEscape (b :: s) = escByte b ++ queryEscape s := by
  simp [queryEscape]

theorem queryEscape_inj : ∀ {a b : Str}, queryEscape a = queryEscape b → a = b := by
  intro a
  induction a with
  | nil =>
    intro b h
    cases b with
    | nil => rfl
    | cons y b2 =>
      rw [queryEscape_nil, queryEscape_cons] at h
      have : escByte y = [] ∧ queryEscape b2 = [] := List.append_eq_nil.mp h.symm
      exact absurd this.1 (escByte_ne_nil y)
  | cons x a2 ih =>
    intro b h
    cases b with
    | nil =>
      rw [queryEscape_nil, queryEscape_cons] at h
      have : escByte x = [] ∧ queryEscape a2 = [] := List.append_eq_nil.mp h
      exact absurd this.1 (escByte_ne_nil x)
    | cons y b2 =>
      rw [queryEscape_cons, queryEscape_cons] at h
      by_cases hux : isUnreserved x <;> by_cases huy : isUnreserved y
      · rw [escByte, if_pos hux, escByte, if_pos huy] at h
        simp only [List.cons_append, List.nil_append, List.cons.injEq] at h
        rw [h.1, ih h.2]
      · rw [escByte, if_pos hux, escByte, if_neg huy] at h
        by_cases hsy : y = (32 : Byte)
        · rw [if_pos hsy] at h
          simp only [List.cons_append, List.nil_append, List.cons.injEq] at h
          exact absurd (h.1 ▸ hux) (by decide)
        · rw [if_neg hsy] at h
          simp only [List.cons_append, List.nil_append, List.cons.injEq] at h
          exact absurd (h.1 ▸ hux) (by decide)
      · rw [escByte, if_neg hux, escByte, if_pos huy] at h
        by_cases hsx : x = (32 : Byte)
        · rw [if_pos hsx] at h
          simp only [List.cons_append, List.nil_append, List.cons.injEq] at h
          exact absurd (h.1 ▸ huy) (by decide)
        · rw [if_neg hsx] at h
          simp only [List.cons_append, List.nil_append, List.cons.injEq] at h
          exact absurd (h.1 ▸ huy) (by decide)
      · rw [escByte, if_neg hux, escByte, if_neg huy] at h
        by_cases hsx : x = (32 : Byte) <;> by_cases hsy : y = (32 : Byte)
        · rw [if_pos hsx, if_pos hsy] at h
          simp only [List.cons_append, List.nil_append, List.cons.injEq] at h
          rw [hsx, hsy, ih h.2]
        · rw [if_pos hsx, if_neg hsy] at h
          simp only [List.cons_append, List.nil_append, List.cons.injEq] at h
          exact absurd h.1 (by decide)
        · rw [if_neg hsx, if_pos hsy] at h
          simp only [List.cons_append, List.nil_append, List.cons.injEq] at h
          exact absurd h.1 (by decide)
        · rw [if_neg hsx, if_neg hsy] at h
          simp only [List.cons_append, List.nil_append, List.cons.injEq] at h
          obtain ⟨-, hh, hl, ht⟩ := h
          have hdiv := hexDigit_inj _ _ hh
          have hmod := hexDigit_inj _ _ hl
          have hdiv2 : x.val / 16 = y.val / 16 := congrArg Fin.val hdiv
          have hmod2 : x.val % 16 = y.val % 16 := congrArg Fin.val hmod
          have hxy : x = y := by
            apply Fin.ext
            omega
          rw [hxy, ih ht]

theorem mem_queryEscape_sep_free {s : Str} : ∀ x ∈ queryEscape s, x ≠ (38 : Byte) ∧ x ≠ (61 : Byte) := by
  intro x hx
  rw [queryEscape, List.mem_flatMap] at hx
  obtain ⟨b, _, hb⟩ := hx
  exact escByte_sep_free b x hb

theorem decNatAux_congr : ∀ (f1 : Nat), ∀ (n : Nat), n < f1 → ∀ (f2 : Nat), n < f2 →
    decNatAux f1 n = decNatAux f2 n := by
  intro f1
  induction f1 with
  | zero => intro n h; omega
  | succ f ih =>
    intro n hn f2 hn2
    cases f2 with
    | zero => omega
    | succ f3 =>
      rw [decNatAux, decNatAux]
      by_cases h : n < 10
      · rw [dif_pos h, dif_pos h]
      · rw [dif_neg h, dif_neg h]
        have hdiv : n / 10 < n := Nat.div_lt_self (by omega) (by omega)
        rw [ih (n / 10) (by omega) f3 (by omega)]

theorem decNat_base {n : Nat} (h : n < 10) :
    decNat n = [⟨48 + n, by omega⟩] := by
  rw [decNat, decNatAux, dif_pos h]

theorem decNat_step {n : Nat} (h : ¬n < 10) :
    decNat n = decNat (n / 10) ++
      [⟨48 + n % 10, by have := Nat.mod_lt n (by omega : 0 < 10); omega⟩] := by
  rw [decNat, decNatAux, dif_neg h, decNat]
  have hdiv : n / 10 < n := Nat.div_lt_self (by omega) (by omega)
  rw [decNatAux_congr n (n / 10) (by omega) (n / 10 + 1) (by omega)]

theorem decNat_digits : ∀ n : Nat, ∀ x ∈ decNat n, 48 ≤ x.val ∧ x.val ≤ 57 := by
  intro n
  induction n using Nat.strong_induction_on with
  | _ n ih =>
    intro x hx
    by_cases h : n < 10
    · rw [decNat_base h] at hx
      simp only [List.mem_singleton] at hx
      subst hx
      simp only []
      omega
    · rw [decNat_step h] at hx
      rw [List.mem_append] at hx
      rcases hx with hx | hx
      · exact ih (n / 10) (Nat.div_lt_self (by omega) (by omega)) x hx
      · simp only [List.mem_singleton] at hx
        subst hx
        have := Nat.mod_lt n (show 0 < 10 by omega)
        simp only []
        omega

theorem valOfDigits_decNat : ∀ n : Nat, valOfDigits (decNat n) = n := by
  intro n
  induction n using Nat.strong_induction_on with
  | _ n ih =>
    by_cases h : n < 10
    · rw [decNat_base h]
      simp [valOfDigits]
    · rw [decNat_step h]
      rw [valOfDigits, List.foldl_append]
      have hrec := ih (n / 10) (Nat.div_lt_self (by omega) (by omega))
      rw [valOfDigits] at hrec
      rw [hrec]
      simp only [List.foldl_cons, List.foldl_nil]
      have := Nat.mod_lt n (show 0 < 10 by omega)
      have hdm := Nat.div_add_mod n 10
      omega

theorem decNat_inj {a b : Nat} (h : decNat a = decNat b) : a = b := by
  have := valOfDigits_decNat a
  rw [h, valOfDigits_decNat] at this
  exact this.symm

theorem decNat_ne_nil (n : Nat) : decNat n ≠ [] := by
  by_cases h : n < 10
  · rw [decNat_base h]; simp
  · rw [decNat_step h]; simp

theorem decInt_inj {a b : Int} (h : decInt a = decInt b) : a = b := by
  rw [decInt, decInt] at h
  by_cases ha : a < 0 <;> by_cases hb : b < 0
  · rw [if_pos ha, if_pos hb] at h
    simp only [List.cons.injEq, true_and] at h
    have := decNat_inj h
    omega
  · rw [if_pos ha, if_neg hb] at h
    cases hd : decNat b.toNat with
    | nil => exact absurd hd (decNat_ne_nil _)
    | cons x xs =>
      rw [hd] at h
      have hx : x ∈ decNat b.toNat := by rw [hd]; exact List.mem_cons_self _ _
      have := decNat_digits _ x hx
      have h45 : (45 : Byte) = x := (List.cons.injEq ..).mp h |>.1
      rw [← h45] at this
      have hv : ((45 : Byte)).val = 45 := rfl
      omega
  · rw [if_neg ha, if_pos hb] at h
    cases hd : decNat a.toNat with
    | nil => exact absurd hd (decNat_ne_nil _)
    | cons x xs =>
      rw [hd] at h
      have hx : x ∈ decNat a.toNat := by rw [hd]; exact List.mem_cons_self _ _
      have := decNat_digits _ x hx
      have h45 : x = (45 : Byte) := (List.cons.injEq ..).mp h |>.1
      rw [h45] at this
      have hv : ((45 : Byte)).val = 45 := rfl
      omega
  · rw [if_neg ha, if_neg hb] at h
    have := decNat_inj h
    omega

theorem decInt_digits_of_pos {n : Int} (h : 0 < n) :
    ∀ x ∈ decInt n, 48 ≤ x.val ∧ x.val ≤ 57 := by
  rw [decInt, if_neg (by omega)]
  exact decNat_digits _

theorem sep_append_inj (sep : Byte) :
    ∀ (a c b d : Str), sep ∉ a → sep ∉ c → a ++ sep :: b = c ++ sep :: d → a = c ∧ b = d := by
  intro a
  induction a with
  | nil =>
    intro c b d _ hc h
    cases c with
    | nil => simp only [List.nil_append, List.cons.injEq] at h; exact ⟨rfl, h.2⟩
    | cons x c2 =>
      simp only [List.nil_append, List.cons_append, List.cons.injEq] at h
      exact absurd (h.1 ▸ List.mem_cons_self x c2) hc
  | cons x a2 ih =>
    intro c b d ha hc h
    cases c with
    | nil =>
      simp only [List.cons_append, List.nil_append, List.cons.injEq] at h
      exact absurd (h.1 ▸ List.mem_cons_self x a2) (h.1 ▸ ha)
    | cons y c2 =>
      simp only [List.cons_append, List.cons.injEq] at h
      obtain ⟨hxy, h2⟩ := h
      have ha2 : sep ∉ a2 := fun hm => ha (List.mem_cons_of_mem _ hm)
      have hc2 : sep ∉ c2 := fun hm => hc (List.mem_cons_of_mem _ hm)
      obtain ⟨he, hb⟩ := ih c2 b d ha2 hc2 h2
      exact ⟨by rw [hxy, he], hb⟩

theorem encPair_sep_free (k v : Str) : (38 : Byte) ∉ encPair k v := by
  intro hm
  rw [encPair, List.mem_append] at hm
  rcases hm with hm | hm
  · exact (mem_queryEscape_sep_free _ hm).1 rfl
  · rw [List.mem_cons] at hm
    rcases hm with hm | hm
    · exact absurd hm (by decide)
    · exact (mem_queryEscape_sep_free _ hm).1 rfl

theorem encPair_ne_nil (k v : Str) : encPair k v ≠ [] := by
  rw [encPair]
  intro h
  rw [List.append_eq_nil] at h
  exact absurd h.2 (by simp)

theorem encPair_inj {k1 v1 k2 v2 : Str} (h : encPair k1 v1 = encPair k2 v2) :
    k1 = k2 ∧ v1 = v2 := by
  rw [encPair, encPair] at h
  have h1 : (61 : Byte) ∉ queryEscape k1 := fun hm => (mem_queryEscape_sep_free _ hm).2 rfl
  have h2 : (61 : Byte) ∉ queryEscape k2 := fun hm => (mem_queryEscape_sep_free _ hm).2 rfl
  obtain ⟨hk, hv⟩ := sep_append_inj 61 _ _ _ _ h1 h2 h
  exact ⟨queryEscape_inj hk, queryEscape_inj hv⟩

theorem joinAmp_inj : ∀ (ts1 ts2 : List Str),
    (∀ t ∈ ts1, (38 : Byte) ∉ t ∧ t ≠ []) → (∀ t ∈ ts2, (38 : Byte) ∉ t ∧ t ≠ []) →
    joinAmp ts1 = joinAmp ts2 → ts1 = ts2 := by
  intro ts1
  induction ts1 with
  | nil =>
    intro ts2 _ h2 h
    cases ts2 with
    | nil => rfl
    | cons u us =>
      cases us with
      | nil =>
        rw [joinAmp, joinAmp] at h
        exact absurd h.symm (h2 u (List.mem_cons_self _ _)).2
      | cons u2 us2 =>
        rw [joinAmp, joinAmp] at h
        cases u with
        | nil => simp at h
        | cons x xs => simp at h
  | cons t rest ih =>
    intro ts2 h1 h2 h
    cases rest with
    | nil =>
      cases ts2 with
      | nil =>
        rw [joinAmp, joinAmp] at h
        exact absurd h (h1 t (List.mem_cons_self _ _)).2
      | cons u us =>
        cases us with
        | nil =>
          rw [joinAmp, joinAmp] at h
          rw [h]
        | cons u2 us2 =>
          rw [joinAmp, joinAmp] at h
          have hmem : (38 : Byte) ∈ t := by
            rw [h]
            exact List.mem_append_right _ (List.mem_cons_self _ _)
          exact absurd hmem (h1 t (List.mem_cons_self _ _)).1
    | cons t2 rest2 =>
      cases ts2 with
      | nil =>
        rw [joinAmp, joinAmp] at h
        have hmem : (38 : Byte) ∈ t := by
          have : t ++ (38 : Byte) :: joinAmp (t2 :: rest2) = [] := h
          rw [List.append_eq_nil] at this
          exact absurd this.2 (by simp)
        exact absurd hmem (h1 t (List.mem_cons_self _ _)).1
      | cons u us =>
        cases us with
        | nil =>
          rw [joinAmp, joinAmp] at h
          have hmem : (38 : Byte) ∈ u := by
            rw [← h]
            exact List.mem_append_right _ (List.mem_cons_self _ _)
          exact absurd hmem (h2 u (List.mem_cons_self _ _)).1
        | cons u2 us2 =>
          rw [joinAmp, joinAmp] at h
          obtain ⟨he, hj⟩ := sep_append_inj 38 _ _ _ _
            (h1 t (List.mem_cons_self _ _)).1 (h2 u (List.mem_cons_self _ _)).1 h
          have hrest := ih (u2 :: us2)
            (fun x hx => h1 x (List.mem_cons_of_mem _ hx))
            (fun x hx => h2 x (List.mem_cons_of_mem _ hx)) hj
          rw [he, hrest]

/- ------------------------------------------------------------------
   Multimap and encoding faithfulness (C5)
   ------------------------------------------------------------------ -/

theorem lookupValues_addValue (k k2 v : Str) : ∀ m : MultiMap,
    lookupValues k (addValue k2 v m) =
      if k2 = k then lookupValues k m ++ [v] else lookupValues k m := by
  intro m
  induction m with
  | nil =>
    simp only [addValue, lookupValues]
    split_ifs <;> simp [lookupValues]
  | cons p rest ih =>
    obtain ⟨k3, vs⟩ := p
    rw [addValue]
    by_cases h3 : k3 = k2
    · rw [if_pos h3]
      by_cases hk : k3 = k
      · rw [lookupValues, if_pos hk, lookupValues, if_pos hk, if_pos (by rw [← h3]; exact hk)]
      · rw [lookupValues, if_neg hk, lookupValues, if_neg hk,
          if_neg (fun hc => hk (by rw [h3]; exact hc))]
    · rw [if_neg h3]
      by_cases hk : k3 = k
      · rw [lookupValues, if_pos hk, lookupValues, if_pos hk,
          if_neg (fun hc => h3 (by rw [hk]; exact hc.symm))]
      · rw [lookupValues, if_neg hk, lookupValues, if_neg hk, ih]

theorem lookupValues_setValues (k k2 : Str) (vs : List Str) : ∀ m : MultiMap,
    lookupValues k (setValues k2 vs m) =
      if k2 = k then vs else lookupValues k m := by
  intro m
  induction m with
  | nil =>
    simp only [setValues, lookupValues]
  | cons p rest ih =>
    obtain ⟨k3, vs2⟩ := p
    rw [setValues]
    by_cases h3 : k3 = k2
    · rw [if_pos h3]
      by_cases hk : k3 = k
      · rw [lookupValues, if_pos hk, if_pos (by rw [← h3]; exact hk)]
      · rw [lookupValues, if_neg hk, lookupValues, if_neg hk,
          if_neg (fun hc => hk (by rw [h3]; exact hc))]
    · rw [if_neg h3]
      by_cases hk : k3 = k
      · rw [lookupValues, if_pos hk, lookupValues, if_pos hk,
          if_neg (fun hc => h3 (by rw [hk]; exact hc.symm))]
      · rw [lookupValues, if_neg hk, lookupValues, if_neg hk, ih]

theorem keysOf_addValue (k v : Str) : ∀ m : MultiMap,
    keysOf (addValue k v m) = if k ∈ keysOf m then keysOf m else keysOf m ++ [k] := by
  intro m
  induction m with
  | nil => simp [addValue, keysOf]
  | cons p rest ih =>
    obtain ⟨k3, vs⟩ := p
    rw [addValue]
    by_cases h3 : k3 = k
    · subst h3
      rw [if_pos rfl]
      rw [if_pos (by rw [keysOf, List.map_cons]; exact List.mem_cons_self _ _)]
      rfl
    · rw [if_neg h3]
      have hcons : keysOf ((k3, vs) :: addValue k v rest) = k3 :: keysOf (addValue k v rest) := rfl
      rw [hcons, ih]
      have hmem : k ∈ keysOf ((k3, vs) :: rest) ↔ k ∈ keysOf rest := by
        show k ∈ k3 :: keysOf rest ↔ k ∈ keysOf rest
        rw [List.mem_cons]
        constructor
        · rintro (hc | hc)
          · exact absurd hc.symm h3
          · exact hc
        · exact Or.inr
      by_cases hk : k ∈ keysOf rest
      · rw [if_pos hk, if_pos (hmem.mpr hk)]
        rfl
      · rw [if_neg hk, if_neg (fun hc => hk (hmem.mp hc))]
        rfl

theorem keysOf_setValues (k : Str) (vs : List Str) : ∀ m : MultiMap,
    keysOf (setValues k vs m) = if k ∈ keysOf m then keysOf m else keysOf m ++ [k] := by
  intro m
  induction m with
  | nil => simp [setValues, keysOf]
  | cons p rest ih =>
    obtain ⟨k3, vs2⟩ := p
    rw [setValues]
    by_cases h3 : k3 = k
    · subst h3
      rw [if_pos rfl]
      rw [if_pos (by rw [keysOf, List.map_cons]; exact List.mem_cons_self _ _)]
      rfl
    · rw [if_neg h3]
      have hcons : keysOf ((k3, vs2) :: setValues k vs rest) = k3 :: keysOf (setValues k vs rest) := rfl
      rw [hcons, ih]
      have hmem : k ∈ keysOf ((k3, vs2) :: rest) ↔ k ∈ keysOf rest := by
        show k ∈ k3 :: keysOf rest ↔ k ∈ keysOf rest
        rw [List.mem_cons]
        constructor
        · rintro (hc | hc)
          · exact absurd hc.symm h3
          · exact hc
        · exact Or.inr
      by_cases hk : k ∈ keysOf rest
      · rw [if_pos hk, if_pos (hmem.mpr hk)]
        rfl
      · rw [if_neg hk, if_neg (fun hc => hk (hmem.mp hc))]
        rfl

theorem nodup_append_singleton {l : List Str} {k : Str} (h : l.Nodup) (hk : k ∉ l) :
    (l ++ [k]).Nodup := by
  rw [List.nodup_append]
  refine ⟨h, List.nodup_singleton _, ?_⟩
  intro a ha hb
  rw [List.mem_singleton] at hb
  subst hb
  exact hk ha

theorem keysOf_addValue_nodup {m : MultiMap} {k v : Str} (h : (keysOf m).Nodup) :
    (keysOf (addValue k v m)).Nodup := by
  rw [keysOf_addValue]
  split_ifs with hm
  · exact h
  · exact nodup_append_singleton h hm

theorem keysOf_setValues_nodup {m : MultiMap} {k : Str} {vs : List Str}
    (h : (keysOf m).Nodup) : (keysOf (setValues k vs m)).Nodup := by
  rw [keysOf_setValues]
  split_ifs with hm
  · exact h
  · exact nodup_append_singleton h hm

theorem lookupValues_eq_nil {k : Str} : ∀ {m : MultiMap}, k ∉ keysOf m → lookupValues k m = [] := by
  intro m
  induction m with
  | nil => intro _; rfl
  | cons p rest ih =>
    obtain ⟨k3, vs⟩ := p
    intro h
    rw [lookupValues, if_neg, ]
    · exact ih (fun hc => h (by rw [keysOf, List.map_cons, List.mem_cons]; exact Or.inr hc))
    · intro hc
      exact h (by rw [keysOf, List.map_cons, hc, List.mem_cons]; exact Or.inl rfl)

theorem valuesAt_append (k : Str) (ps qs : List (Str × Str)) :
    valuesAt k (ps ++ qs) = valuesAt k ps ++ valuesAt k qs := by
  simp [valuesAt]

theorem valuesAt_block (k k2 : Str) : ∀ vs : List Str,
    valuesAt k (vs.map (fun v => (k2, v))) = if k2 = k then vs else [] := by
  intro vs
  induction vs with
  | nil => simp [valuesAt]
  | cons v rest ih =>
    rw [List.map_cons, valuesAt, List.filter_cons]
    rw [valuesAt] at ih
    by_cases h : k2 = k
    · rw [if_pos (by simpa using h), if_pos h, List.map_cons, ih, if_pos h]
    · rw [if_neg (by simpa using h), ih, if_neg h, if_neg h]

theorem valuesAt_flatMap (k : Str) (m : MultiMap) : ∀ ks : List Str, ks.Nodup →
    valuesAt k (ks.flatMap (fun k2 => (lookupValues k2 m).map (fun v => (k2, v)))) =
      if k ∈ ks then lookupValues k m else [] := by
  intro ks
  induction ks with
  | nil => intro _; simp [valuesAt]
  | cons k2 rest ih =>
    intro hnd
    rw [List.flatMap_cons, valuesAt_append, valuesAt_block]
    rw [ih (List.Nodup.of_cons hnd)]
    by_cases h2 : k2 = k
    · subst h2
      have hk : k2 ∉ rest := (List.nodup_cons.mp hnd).1
      rw [if_pos rfl, if_neg hk, if_pos (List.mem_cons_self _ _)]
      simp
    · rw [if_neg h2]
      by_cases hm : k ∈ rest
      · rw [if_pos hm, if_pos (List.mem_cons_of_mem _ hm)]
        simp
      · rw [if_neg hm, if_neg (by
          intro hc
          rcases List.mem_cons.mp hc with hc | hc
          · exact h2 hc.symm
          · exact hm hc)]
        simp

theorem valuesAt_pairsOf (m : MultiMap) (hnd : (keysOf m).Nodup) (k : Str) :
    valuesAt k (pairsOf m) = lookupValues k m := by
  rw [pairsOf]
  have hperm : List.Perm ((keysOf m).insertionSort (fun a b => lexLe a b = true)) (keysOf m) :=
    List.perm_insertionSort _ _
  have hnd2 : ((keysOf m).insertionSort (fun a b => lexLe a b = true)).Nodup :=
    hperm.nodup_iff.mpr hnd
  rw [valuesAt_flatMap k m _ hnd2]
  by_cases hm : k ∈ keysOf m
  · rw [if_pos (hperm.mem_iff.mpr hm)]
  · rw [if_neg (fun hc => hm (hperm.mem_iff.mp hc)), lookupValues_eq_nil hm]

/-- Two multimaps with duplicate-free keys that encode to the same
canonical string agree on the values of every key. -/
theorem encodeValues_faithful (m1 m2 : MultiMap)
    (h1 : (keysOf m1).Nodup) (h2 : (keysOf m2).Nodup)
    (h : encodeValues m1 = encodeValues m2) :
    ∀ k, lookupValues k m1 = lookupValues k m2 := by
  rw [encodeValues, encodeValues] at h
  have htok : ∀ (m : MultiMap), ∀ t ∈ (pairsOf m).map (fun p => encPair p.1 p.2),
      (38 : Byte) ∉ t ∧ t ≠ [] := by
    intro m t ht
    rw [List.mem_map] at ht
    obtain ⟨p, _, hp⟩ := ht
    exact hp ▸ ⟨encPair_sep_free _ _, encPair_ne_nil _ _⟩
  have hmaps := joinAmp_inj _ _ (htok m1) (htok m2) h
  have hinj : Function.Injective (fun p : Str × Str => encPair p.1 p.2) := by
    intro p q hpq
    obtain ⟨hk, hv⟩ := encPair_inj hpq
    exact Prod.ext hk hv
  have hpairs : pairsOf m1 = pairsOf m2 := List.map_injective_iff.mpr hinj hmaps
  intro k
  rw [← valuesAt_pairsOf m1 h1 k, ← valuesAt_pairsOf m2 h2 k, hpairs]

/- ------------------------------------------------------------------
   Signature multimap analysis (C5): keys and lookups
   ------------------------------------------------------------------ -/

theorem decInt_not_mem_dash {n : Int} (hn : 0 < n) : (45 : Byte) ∉ decInt n := by
  intro hm
  have hd := decInt_digits_of_pos hn _ hm
  have hv : ((45 : Byte)).val = 45 := rfl
  omega

theorem stepKey_parts_inj {n m : Int} {t1 t2 : Str} (hn : 0 < n) (hm : 0 < m)
    (h : stepDash ++ decInt n ++ (45 : Byte) :: t1 = stepDash ++ decInt m ++ (45 : Byte) :: t2) :
    n = m ∧ t1 = t2 := by
  rw [List.append_assoc, List.append_assoc] at h
  have h2 : decInt n ++ (45 : Byte) :: t1 = decInt m ++ (45 : Byte) :: t2 :=
    List.append_cancel_left h
  obtain ⟨hdec, ht⟩ := sep_append_inj 45 _ _ _ _ (decInt_not_mem_dash hn) (decInt_not_mem_dash hm) h2
  exact ⟨decInt_inj hdec, ht⟩

theorem stepNoteKey_inj {n m : Int} (hn : 0 < n) (hm : 0 < m)
    (h : stepNoteKey n = stepNoteKey m) : n = m :=
  (stepKey_parts_inj hn hm h).1

theorem stepWeightKey_inj {n m : Int} (hn : 0 < n) (hm : 0 < m)
    (h : stepWeightKey n = stepWeightKey m) : n = m :=
  (stepKey_parts_inj hn hm h).1

theorem stepFileKey_inj {n m : Int} {x y : Str} (hn : 0 < n) (hm : 0 < m)
    (h : stepFileKey n x = stepFileKey m y) : n = m ∧ x = y := by
  obtain ⟨hnm, ht⟩ := stepKey_parts_inj hn hm h
  exact ⟨hnm, List.append_cancel_left ht⟩

theorem stepNoteKey_ne_weightKey {n m : Int} (hn : 0 < n) (hm : 0 < m) :
    stepNoteKey n ≠ stepWeightKey m := by
  intro h
  have := (stepKey_parts_inj hn hm h).2
  exact absurd this (by decide)

theorem stepNoteKey_ne_fileKey {n m : Int} {x : Str} (hn : 0 < n) (hm : 0 < m) :
    stepNoteKey n ≠ stepFileKey m x := by
  intro h
  have ht := (stepKey_parts_inj hn hm h).2
  have hcontra : some (110 : Byte) = some (102 : Byte) := by
    calc some (110 : Byte) = noteTail.head? := rfl
    _ = (fileDash ++ x).head? := by rw [ht]
    _ = some (102 : Byte) := rfl
  exact absurd hcontra (by decide)

theorem stepWeightKey_ne_fileKey {n m : Int} {x : Str} (hn : 0 < n) (hm : 0 < m) :
    stepWeightKey n ≠ stepFileKey m x := by
  intro h
  have ht := (stepKey_parts_inj hn hm h).2
  have hcontra : some (119 : Byte) = some (102 : Byte) := by
    calc some (119 : Byte) = weightTail.head? := rfl
    _ = (fileDash ++ x).head? := by rw [ht]
    _ = some (102 : Byte) := rfl
  exact absurd hcontra (by decide)

theorem stepNoteKey_head (n : Int) : (stepNoteKey n).head? = some (115 : Byte) := rfl

theorem stepWeightKey_head (n : Int) : (stepWeightKey n).head? = some (115 : Byte) := rfl

theorem stepFileKey_head (n : Int) (x : Str) : (stepFileKey n x).head? = some (115 : Byte) := rfl

theorem lookup_files_foldl (k : Str) (n : Int) : ∀ (files : List (Str × Str)) (m : MultiMap),
    lookupValues k (files.foldl (fun m3 f => addValue (stepFileKey n f.1) f.2 m3) m)
      = lookupValues k m ++ (files.filter (fun f => stepFileKey n f.1 == k)).map Prod.snd := by
  intro files
  induction files with
  | nil => intro m; simp
  | cons f rest ih =>
    intro m
    rw [List.foldl_cons, ih, lookupValues_addValue, List.filter_cons]
    by_cases h : stepFileKey n f.1 = k
    · rw [if_pos h, if_pos (by simpa using h), List.map_cons]
      simp [List.append_assoc]
    · rw [if_neg h, if_neg (by simpa using h)]

theorem lookup_addStepValues (k : Str) (st : ProblemStep) (m : MultiMap) :
    lookupValues k (addStepValues st m)
      = lookupValues k m
        ++ ((if stepNoteKey st.Step = k then [st.Note] else [])
        ++ (if stepWeightKey st.Step = k then [decInt st.Weight] else [])
        ++ (st.Files.filter (fun f => stepFileKey st.Step f.1 == k)).map Prod.snd) := by
  simp only [addStepValues]
  rw [lookup_files_foldl, lookupValues_addValue, lookupValues_addValue]
  by_cases h1 : stepNoteKey st.Step = k <;> by_cases h2 : stepWeightKey st.Step = k <;>
    simp [h1, h2, List.append_assoc]

theorem lookup_steps_foldl (k : Str) : ∀ (steps : List ProblemStep) (m : MultiMap),
    lookupValues k (steps.foldl (fun m2 st => addStepValues st m2) m)
      = lookupValues k m ++ (steps.map (fun st =>
          (if stepNoteKey st.Step = k then [st.Note] else [])
          ++ (if stepWeightKey st.Step = k then [decInt st.Weight] else [])
          ++ (st.Files.filter (fun f => stepFileKey st.Step f.1 == k)).map Prod.snd)).flatten := by
  intro steps
  induction steps with
  | nil => intro m; simp
  | cons st rest ih =>
    intro m
    rw [List.foldl_cons, ih, lookup_addStepValues, List.map_cons, List.flatten_cons]
    simp [List.append_assoc]

theorem lookup_baseValues_stepKey (p : Problem) (k115 : Str)
    (hk115 : k115.head? = some (115 : Byte)) :
    lookupValues k115 (baseValues p) = [] := by
  have hne : ∀ (k : Str), k.head? ≠ some (115 : Byte) → k ≠ k115 :=
    fun k hk h => hk (by rw [h]; exact hk115)
  simp only [baseValues]
  rw [lookupValues_addValue, if_neg (hne keyUpdatedAt (by decide)),
     lookupValues_addValue, if_neg (hne keyCreatedAt (by decide)),
     lookupValues_setValues, if_neg (hne keyOptions (by decide)),
     lookupValues_setValues, if_neg (hne keyTags (by decide)),
     lookupValues_addValue, if_neg (hne keyProblemType (by decide)),
     lookupValues_addValue, if_neg (hne keyNote (by decide)),
     lookupValues_addValue, if_neg (hne keyUnique (by decide)),
     lookupValues_addValue, if_neg (hne keyId (by decide))]
  rfl

theorem contrib_of_head_ne (st : ProblemStep) (k : Str) (hk : k.head? ≠ some (115 : Byte)) :
    (if stepNoteKey st.Step = k then [st.Note] else [])
    ++ (if stepWeightKey st.Step = k then [decInt st.Weight] else [])
    ++ (st.Files.filter (fun f => stepFileKey st.Step f.1 == k)).map Prod.snd = [] := by
  rw [if_neg (fun h => hk (by rw [← h]; exact stepNoteKey_head _)),
      if_neg (fun h => hk (by rw [← h]; exact stepWeightKey_head _))]
  have hfil : st.Files.filter (fun f => stepFileKey st.Step f.1 == k) = [] := by
    rw [List.filter_eq_nil_iff]
    intro f _
    simp only [beq_iff_eq]
    exact fun h => hk (by rw [← h]; exact stepFileKey_head _ _)
  rw [hfil]
  rfl

theorem lookup_sig_of_head_ne (p : Problem) (steps : List ProblemStep) (k : Str)
    (hk : k.head? ≠ some (115 : Byte)) :
    lookupValues k (signatureValues p steps) = lookupValues k (baseValues p) := by
  rw [signatureValues, lookup_steps_foldl]
  have hnil : (steps.map (fun st =>
      (if stepNoteKey st.Step = k then [st.Note] else [])
      ++ (if stepWeightKey st.Step = k then [decInt st.Weight] else [])
      ++ (st.Files.filter (fun f => stepFileKey st.Step f.1 == k)).map Prod.snd)).flatten = [] := by
    rw [List.flatten_eq_nil_iff]
    intro l hl
    rw [List.mem_map] at hl
    obtain ⟨st, _, heq⟩ := hl
    rw [← heq]
    exact contrib_of_head_ne st k hk
  rw [hnil, List.append_nil]

theorem keysOf_baseValues_nodup (p : Problem) : (keysOf (baseValues p)).Nodup := by
  simp only [baseValues]
  apply keysOf_addValue_nodup
  apply keysOf_addValue_nodup
  apply keysOf_setValues_nodup
  apply keysOf_setValues_nodup
  apply keysOf_addValue_nodup
  apply keysOf_addValue_nodup
  apply keysOf_addValue_nodup
  apply keysOf_addValue_nodup
  exact List.nodup_nil

theorem keysOf_files_foldl_nodup (n : Int) : ∀ (files : List (Str × Str)) (m : MultiMap),
    (keysOf m).Nodup →
    (keysOf (files.foldl (fun m3 f => addValue (stepFileKey n f.1) f.2 m3) m)).Nodup := by
  intro files
  induction files with
  | nil => intro m h; exact h
  | cons f rest ih =>
    intro m h
    rw [List.foldl_cons]
    exact ih _ (keysOf_addValue_nodup h)

theorem keysOf_addStepValues_nodup (st : ProblemStep) (m : MultiMap)
    (h : (keysOf m).Nodup) : (keysOf (addStepValues st m)).Nodup := by
  simp only [addStepValues]
  exact keysOf_files_foldl_nodup _ _ _ (keysOf_addValue_nodup (keysOf_addValue_nodup h))

theorem keysOf_signatureValues_nodup (p : Problem) (steps : List ProblemStep) :
    (keysOf (signatureValues p steps)).Nodup := by
  rw [signatureValues]
  have hgen : ∀ (ss : List ProblemStep) (m : MultiMap), (keysOf m).Nodup →
      (keysOf (ss.foldl (fun m2 st => addStepValues st m2) m)).Nodup := by
    intro ss
    induction ss with
    | nil => intro m h; exact h
    | cons st rest ih =>
      intro m h
      rw [List.foldl_cons]
      exact ih _ (keysOf_addStepValues_nodup _ _ h)
  exact hgen steps _ (keysOf_baseValues_nodup p)

theorem flatten_if_unique (payload : ProblemStep → List Str) :
    ∀ (steps : List ProblemStep) (n : Int) (i : Nat) (hi : i < steps.length),
    (∀ j (hj : j < steps.length), ((steps.get ⟨j, hj⟩).Step = n ↔ j = i)) →
    (steps.map (fun st => if st.Step = n then payload st else [])).flatten
      = payload (steps.get ⟨i, hi⟩) := by
  intro steps
  induction steps with
  | nil => intro n i hi _; exact absurd hi (by simp)
  | cons st rest ih =>
    intro n i hi huniq
    rw [List.map_cons, List.flatten_cons]
    cases i with
    | zero =>
      rw [if_pos (show st.Step = n from (huniq 0 (by simp)).mpr rfl)]
      have hrest : ∀ l ∈ rest.map (fun st2 => if st2.Step = n then payload st2 else []), l = [] := by
        intro l hl
        rw [List.mem_map] at hl
        obtain ⟨st2, hmem, heq⟩ := hl
        obtain ⟨⟨j, hj⟩, hjeq⟩ := List.mem_iff_get.mp hmem
        rw [← heq]
        have hne : ¬(st2.Step = n) := by
          intro hc
          have hj2 : j + 1 < (st :: rest).length := by simpa using Nat.succ_lt_succ hj
          have hcc : ((st :: rest).get ⟨j + 1, hj2⟩).Step = n := by
            have hg : (st :: rest).get ⟨j + 1, hj2⟩ = rest.get ⟨j, hj⟩ := rfl
            rw [hg, hjeq]
            exact hc
          have := (huniq (j + 1) hj2).mp hcc
          omega
        rw [if_neg hne]
      rw [List.flatten_eq_nil_iff.mpr hrest]
      simp
    | succ j2 =>
      have hne0 : ¬(st.Step = n) := by
        intro hc
        have h0 : (0 : Nat) < (st :: rest).length := by simp
        have := (huniq 0 h0).mp (by
          have hg : (st :: rest).get ⟨0, h0⟩ = st := rfl
          rw [hg]
          exact hc)
        omega
      rw [if_neg hne0, List.nil_append]
      refine ih n j2 (Nat.lt_of_succ_lt_succ hi) ?_
      intro j hj
      have hj2 : j + 1 < (st :: rest).length := by simpa using Nat.succ_lt_succ hj
      have hg : (st :: rest).get ⟨j + 1, hj2⟩ = rest.get ⟨j, hj⟩ := rfl
      have hiff := huniq (j + 1) hj2
      rw [hg] at hiff
      constructor
      · intro hc
        have := hiff.mp hc
        omega
      · intro hc
        subst hc
        exact hiff.mpr rfl

theorem contrib_noteKey (st : ProblemStep) (n : Int) (hst : 0 < st.Step) (hn : 0 < n) :
    (if stepNoteKey st.Step = stepNoteKey n then [st.Note] else [])
    ++ (if stepWeightKey st.Step = stepNoteKey n then [decInt st.Weight] else [])
    ++ (st.Files.filter (fun f => stepFileKey st.Step f.1 == stepNoteKey n)).map Prod.snd
    = if st.Step = n then [st.Note] else [] := by
  rw [if_neg (show ¬(stepWeightKey st.Step = stepNoteKey n) from
    fun h => stepNoteKey_ne_weightKey hn hst h.symm)]
  have hfil : st.Files.filter (fun f => stepFileKey st.Step f.1 == stepNoteKey n) = [] := by
    rw [List.filter_eq_nil_iff]
    intro f _
    simp only [beq_iff_eq]
    exact fun h => stepNoteKey_ne_fileKey hn hst h.symm
  rw [hfil]
  by_cases h : st.Step = n
  · rw [if_pos (show stepNoteKey st.Step = stepNoteKey n by rw [h]), if_pos h]
    rfl
  · rw [if_neg (show ¬(stepNoteKey st.Step = stepNoteKey n) from
      fun hc => h (stepNoteKey_inj hst hn hc)), if_neg h]
    rfl

theorem contrib_weightKey (st : ProblemStep) (n : Int) (hst : 0 < st.Step) (hn : 0 < n) :
    (if stepNoteKey st.Step = stepWeightKey n then [st.Note] else [])
    ++ (if stepWeightKey st.Step = stepWeightKey n then [decInt st.Weight] else [])
    ++ (st.Files.filter (fun f => stepFileKey st.Step f.1 == stepWeightKey n)).map Prod.snd
    = if st.Step = n then [decInt st.Weight] else [] := by
  rw [if_neg (show ¬(stepNoteKey st.Step = stepWeightKey n) from stepNoteKey_ne_weightKey hst hn)]
  have hfil : st.Files.filter (fun f => stepFileKey st.Step f.1 == stepWeightKey n) = [] := by
    rw [List.filter_eq_nil_iff]
    intro f _
    simp only [beq_iff_eq]
    exact fun h => stepWeightKey_ne_fileKey hn hst h.symm
  rw [hfil]
  by_cases h : st.Step = n
  · rw [if_pos (show stepWeightKey st.Step = stepWeightKey n by rw [h]), if_pos h]
    rfl
  · rw [if_neg (show ¬(stepWeightKey st.Step = stepWeightKey n) from
      fun hc => h (stepWeightKey_inj hst hn hc)), if_neg h]
    rfl

theorem contrib_fileKey (st : ProblemStep) (n : Int) (name : Str)
    (hst : 0 < st.Step) (hn : 0 < n) :
    (if stepNoteKey st.Step = stepFileKey n name then [st.Note] else [])
    ++ (if stepWeightKey st.Step = stepFileKey n name then [decInt st.Weight] else [])
    ++ (st.Files.filter (fun f => stepFileKey st.Step f.1 == stepFileKey n name)).map Prod.snd
    = if st.Step = n then fileLookup name st.Files else [] := by
  rw [if_neg (show ¬(stepNoteKey st.Step = stepFileKey n name) from stepNoteKey_ne_fileKey hst hn),
     if_neg (show ¬(stepWeightKey st.Step = stepFileKey n name) from stepWeightKey_ne_fileKey hst hn)]
  by_cases h : st.Step = n
  · subst h
    rw [if_pos rfl, fileLookup]
    have hcongr : st.Files.filter (fun f => stepFileKey st.Step f.1 == stepFileKey st.Step name)
        = st.Files.filter (fun f => f.1 == name) := by
      apply List.filter_congr
      intro f _
      by_cases hf : f.1 = name
      · rw [hf]
        simp
      · have h1 : (stepFileKey st.Step f.1 == stepFileKey st.Step name) = false := by
          rw [beq_eq_false_iff_ne]
          exact fun hc => hf (stepFileKey_inj hst hst hc).2
        have h2 : (f.1 == name) = false := beq_eq_false_iff_ne.mpr hf
        rw [h1, h2]
    rw [hcongr]
    rfl
  · have hfil : st.Files.filter (fun f => stepFileKey st.Step f.1 == stepFileKey n name) = [] := by
      rw [List.filter_eq_nil_iff]
      intro f _
      simp only [beq_iff_eq]
      exact fun hc => h (stepFileKey_inj hst hn hc).1
    rw [hfil, if_neg h]
    rfl

theorem WFSteps_pos {steps : List ProblemStep} (hw : WFSteps steps) :
    ∀ st ∈ steps, 0 < st.Step := by
  intro st hmem
  obtain ⟨⟨j, hj⟩, hjeq⟩ := List.mem_iff_get.mp hmem
  rw [← hjeq, hw j hj]
  omega

theorem lookup_sig_noteKey (p : Problem) (steps : List ProblemStep) (hw : WFSteps steps)
    (i : Nat) (hi : i < steps.length) :
    lookupValues (stepNoteKey ((i : Int) + 1)) (signatureValues p steps)
      = [(steps.get ⟨i, hi⟩).Note] := by
  rw [signatureValues, lookup_steps_foldl,
    lookup_baseValues_stepKey p _ (stepNoteKey_head _), List.nil_append]
  have hmap : steps.map (fun st =>
      (if stepNoteKey st.Step = stepNoteKey ((i : Int) + 1) then [st.Note] else [])
      ++ (if stepWeightKey st.Step = stepNoteKey ((i : Int) + 1) then [decInt st.Weight] else [])
      ++ (st.Files.filter (fun f => stepFileKey st.Step f.1 == stepNoteKey ((i : Int) + 1))).map Prod.snd)
      = steps.map (fun st => if st.Step = ((i : Int) + 1) then [st.Note] else []) := by
    apply List.map_congr_left
    intro st hmem
    exact contrib_noteKey st _ (WFSteps_pos hw st hmem) (by omega)
  rw [hmap]
  exact flatten_if_unique (fun st => [st.Note]) steps ((i : Int) + 1) i hi (fun j hj => by
    rw [hw j hj]
    constructor
    · intro hc; omega
    · intro hc; subst hc; rfl)

theorem lookup_sig_noteKey_ge (p : Problem) (steps : List ProblemStep) (hw : WFSteps steps)
    (i : Nat) (hi : steps.length ≤ i) :
    lookupValues (stepNoteKey ((i : Int) + 1)) (signatureValues p steps) = [] := by
  rw [signatureValues, lookup_steps_foldl,
    lookup_baseValues_stepKey p _ (stepNoteKey_head _), List.nil_append]
  rw [List.flatten_eq_nil_iff]
  intro l hl
  rw [List.mem_map] at hl
  obtain ⟨st, hmem, heq⟩ := hl
  obtain ⟨⟨j, hj⟩, hjeq⟩ := List.mem_iff_get.mp hmem
  rw [← heq, contrib_noteKey st _ (WFSteps_pos hw st hmem) (by omega)]
  have hne : ¬(st.Step = (i : Int) + 1) := by
    rw [← hjeq, hw j hj]
    intro hc
    omega
  rw [if_neg hne]

theorem lookup_sig_weightKey (p : Problem) (steps : List ProblemStep) (hw : WFSteps steps)
    (i : Nat) (hi : i < steps.length) :
    lookupValues (stepWeightKey ((i : Int) + 1)) (signatureValues p steps)
      = [decInt (steps.get ⟨i, hi⟩).Weight] := by
  rw [signatureValues, lookup_steps_foldl,
    lookup_baseValues_stepKey p _ (stepWeightKey_head _), List.nil_append]
  have hmap : steps.map (fun st =>
      (if stepNoteKey st.Step = stepWeightKey ((i : Int) + 1) then [st.Note] else [])
      ++ (if stepWeightKey st.Step = stepWeightKey ((i : Int) + 1) then [decInt st.Weight] else [])
      ++ (st.Files.filter (fun f => stepFileKey st.Step f.1 == stepWeightKey ((i : Int) + 1))).map Prod.snd)
      = steps.map (fun st => if st.Step = ((i : Int) + 1) then [decInt st.Weight] else []) := by
    apply List.map_congr_left
    intro st hmem
    exact contrib_weightKey st _ (WFSteps_pos hw st hmem) (by omega)
  rw [hmap]
  exact flatten_if_unique (fun st => [decInt st.Weight]) steps ((i : Int) + 1) i hi (fun j hj => by
    rw [hw j hj]
    constructor
    · intro hc; omega
    · intro hc; subst hc; rfl)

theorem lookup_sig_fileKey (p : Problem) (steps : List ProblemStep) (hw : WFSteps steps)
    (i : Nat) (hi : i < steps.length) (name : Str) :
    lookupValues (stepFileKey ((i : Int) + 1) name) (signatureValues p steps)
      = fileLookup name (steps.get ⟨i, hi⟩).Files := by
  rw [signatureValues, lookup_steps_foldl,
    lookup_baseValues_stepKey p _ (stepFileKey_head _ _), List.nil_append]
  have hmap : steps.map (fun st =>
      (if stepNoteKey st.Step = stepFileKey ((i : Int) + 1) name then [st.Note] else [])
      ++ (if stepWeightKey st.Step = stepFileKey ((i : Int) + 1) name then [decInt st.Weight] else [])
      ++ (st.Files.filter (fun f => stepFileKey st.Step f.1 == stepFileKey ((i : Int) + 1) name)).map Prod.snd)
      = steps.map (fun st => if st.Step = ((i : Int) + 1) then fileLookup name st.Files else []) := by
    apply List.map_congr_left
    intro st hmem
    exact contrib_fileKey st _ name (WFSteps_pos hw st hmem) (by omega)
  rw [hmap]
  exact flatten_if_unique (fun st => fileLookup name st.Files) steps ((i : Int) + 1) i hi
    (fun j hj => by
      rw [hw j hj]
      constructor
      · intro hc; omega
      · intro hc; subst hc; rfl)

theorem lookup_base_keyId (p : Problem) :
    lookupValues keyId (baseValues p) = [decInt p.ID] := by
  simp only [baseValues]
  rw [lookupValues_addValue, if_neg (by decide),
     lookupValues_addValue, if_neg (by decide),
     lookupValues_setValues, if_neg (by decide),
     lookupValues_setValues, if_neg (by decide),
     lookupValues_addValue, if_neg (by decide),
     lookupValues_addValue, if_neg (by decide),
     lookupValues_addValue, if_neg (by decide),
     lookupValues_addValue, if_pos rfl]
  rfl

theorem lookup_base_keyUnique (p : Problem) :
    lookupValues keyUnique (baseValues p) = [p.Unique] := by
  simp only [baseValues]
  rw [lookupValues_addValue, if_neg (by decide),
     lookupValues_addValue, if_neg (by decide),
     lookupValues_setValues, if_neg (by decide),
     lookupValues_setValues, if_neg (by decide),
     lookupValues_addValue, if_neg (by decide),
     lookupValues_addValue, if_neg (by decide),
     lookupValues_addValue, if_pos rfl,
     lookupValues_addValue, if_neg (by decide)]
  rfl

theorem lookup_base_keyNote (p : Problem) :
    lookupValues keyNote (baseValues p) = [p.Note] := by
  simp only [baseValues]
  rw [lookupValues_addValue, if_neg (by decide),
     lookupValues_addValue, if_neg (by decide),
     lookupValues_setValues, if_neg (by decide),
     lookupValues_setValues, if_neg (by decide),
     lookupValues_addValue, if_neg (by decide),
     lookupValues_addValue, if_pos rfl,
     lookupValues_addValue, if_neg (by decide),
     lookupValues_addValue, if_neg (by decide)]
  rfl

theorem lookup_base_keyProblemType (p : Problem) :
    lookupValues keyProblemType (baseValues p) = [p.ProblemType] := by
  simp only [baseValues]
  rw [lookupValues_addValue, if_neg (by decide),
     lookupValues_addValue, if_neg (by decide),
     lookupValues_setValues, if_neg (by decide),
     lookupValues_setValues, if_neg (by decide),
     lookupValues_addValue, if_pos rfl,
     lookupValues_addValue, if_neg (by decide),
     lookupValues_addValue, if_neg (by decide),
     lookupValues_addValue, if_neg (by decide)]
  rfl

theorem lookup_base_keyTags (p : Problem) :
    lookupValues keyTags (baseValues p) = p.Tags := by
  simp only [baseValues]
  rw [lookupValues_addValue, if_neg (by decide),
     lookupValues_addValue, if_neg (by decide),
     lookupValues_setValues, if_neg (by decide),
     lookupValues_setValues, if_pos rfl]

theorem lookup_base_keyOptions (p : Problem) :
    lookupValues keyOptions (baseValues p) = p.Options := by
  simp only [baseValues]
  rw [lookupValues_addValue, if_neg (by decide),
     lookupValues_addValue, if_neg (by decide),
     lookupValues_setValues, if_pos rfl]

theorem lookup_base_keyCreatedAt (p : Problem) :
    lookupValues keyCreatedAt (baseValues p) = [fmtTime p.CreatedAt] := by
  simp only [baseValues]
  rw [lookupValues_addValue, if_neg (by decide),
     lookupValues_addValue, if_pos rfl,
     lookupValues_setValues, if_neg (by decide),
     lookupValues_setValues, if_neg (by decide),
     lookupValues_addValue, if_neg (by decide),
     lookupValues_addValue, if_neg (by decide),
     lookupValues_addValue, if_neg (by decide),
     lookupValues_addValue, if_neg (by decide)]
  rfl

theorem lookup_base_keyUpdatedAt (p : Problem) :
    lookupValues keyUpdatedAt (baseValues p) = [fmtTime p.UpdatedAt] := by
  simp only [baseValues]
  rw [lookupValues_addValue, if_pos rfl,
     lookupValues_addValue, if_neg (by decide),
     lookupValues_setValues, if_neg (by decide),
     lookupValues_setValues, if_neg (by decide),
     lookupValues_addValue, if_neg (by decide),
     lookupValues_addValue, if_neg (by decide),
     lookupValues_addValue, if_neg (by decide),
     lookupValues_addValue, if_neg (by decide)]
  rfl

/-- C5 (amended): the canonical signature encoding is injective over the
signed fields, with the timestamps taken at second granularity: for
well-formed step lists (steps numbered 1..n as Normalize produces), equal
canonical encodings force equal id, unique key, note, problem type, tags,
options, second-rounded timestamps, step count, and per-step notes,
weights and file contents.  Contrapositive: a change to any of those
fields changes the encoded string and hence the HMAC-SHA256 input of
ComputeSignature.  Sub-second timestamp changes are erased by the
rounding on problem.go lines 149-150 and do not change the encoding. -/
theorem signedData_injective
    (p1 p2 : Problem) (steps1 steps2 : List ProblemStep)
    (hw1 : WFSteps steps1) (hw2 : WFSteps steps2)
    (h : signedData p1 steps1 = signedData p2 steps2) :
    p1.ID = p2.ID ∧ p1.Unique = p2.Unique ∧ p1.Note = p2.Note ∧
    p1.ProblemType = p2.ProblemType ∧ p1.Tags = p2.Tags ∧ p1.Options = p2.Options ∧
    roundSecond p1.CreatedAt = roundSecond p2.CreatedAt ∧
    roundSecond p1.UpdatedAt = roundSecond p2.UpdatedAt ∧
    steps1.length = steps2.length ∧
    (∀ i (h1 : i < steps1.length) (h2 : i < steps2.length),
      (steps1.get ⟨i, h1⟩).Note = (steps2.get ⟨i, h2⟩).Note ∧
      (steps1.get ⟨i, h1⟩).Weight = (steps2.get ⟨i, h2⟩).Weight ∧
      ∀ name, fileLookup name (steps1.get ⟨i, h1⟩).Files
        = fileLookup name (steps2.get ⟨i, h2⟩).Files) := by
  have hl := encodeValues_faithful _ _
    (keysOf_signatureValues_nodup p1 steps1) (keysOf_signatureValues_nodup p2 steps2) h
  have hbase : ∀ k, k.head? ≠ some (115 : Byte) →
      lookupValues k (baseValues p1) = lookupValues k (baseValues p2) := by
    intro k hk
    rw [← lookup_sig_of_head_ne p1 steps1 k hk, ← lookup_sig_of_head_ne p2 steps2 k hk]
    exact hl k
  have hid := hbase keyId (by decide)
  rw [lookup_base_keyId, lookup_base_keyId] at hid
  have hunique := hbase keyUnique (by decide)
  rw [lookup_base_keyUnique, lookup_base_keyUnique] at hunique
  have hnote := hbase keyNote (by decide)
  rw [lookup_base_keyNote, lookup_base_keyNote] at hnote
  have hptype := hbase keyProblemType (by decide)
  rw [lookup_base_keyProblemType, lookup_base_keyProblemType] at hptype
  have htags := hbase keyTags (by decide)
  rw [lookup_base_keyTags, lookup_base_keyTags] at htags
  have hopts := hbase keyOptions (by decide)
  rw [lookup_base_keyOptions, lookup_base_keyOptions] at hopts
  have hcre := hbase keyCreatedAt (by decide)
  rw [lookup_base_keyCreatedAt, lookup_base_keyCreatedAt] at hcre
  have hupd := hbase keyUpdatedAt (by decide)
  rw [lookup_base_keyUpdatedAt, lookup_base_keyUpdatedAt] at hupd
  have hlen : steps1.length = steps2.length := by
    rcases Nat.lt_trichotomy steps1.length steps2.length with hlt | heq | hgt
    · have h1 := lookup_sig_noteKey_ge p1 steps1 hw1 steps1.length (le_refl _)
      have h2 := lookup_sig_noteKey p2 steps2 hw2 steps1.length hlt
      rw [hl (stepNoteKey ((steps1.length : Int) + 1)), h2] at h1
      exact absurd h1 (by simp)
    · exact heq
    · have h1 := lookup_sig_noteKey p1 steps1 hw1 steps2.length hgt
      have h2 := lookup_sig_noteKey_ge p2 steps2 hw2 steps2.length (le_refl _)
      rw [hl (stepNoteKey ((steps2.length : Int) + 1)), h2] at h1
      exact absurd h1 (by simp)
  have hid2 : p1.ID = p2.ID := by
    injection hid with h1 h2
    exact decInt_inj h1
  have hunique2 : p1.Unique = p2.Unique := by injection hunique with h1 h2
  have hnote2 : p1.Note = p2.Note := by injection hnote with h1 h2
  have hptype2 : p1.ProblemType = p2.ProblemType := by injection hptype with h1 h2
  have hcre2 : roundSecond p1.CreatedAt = roundSecond p2.CreatedAt := by
    rw [fmtTime, fmtTime] at hcre
    injection hcre with h1 h2
    exact decInt_inj h1
  have hupd2 : roundSecond p1.UpdatedAt = roundSecond p2.UpdatedAt := by
    rw [fmtTime, fmtTime] at hupd
    injection hupd with h1 h2
    exact decInt_inj h1
  refine ⟨hid2, hunique2, hnote2, hptype2, htags, hopts, hcre2, hupd2, hlen, ?_⟩
  intro i hi1 hi2
  have hn := hl (stepNoteKey ((i : Int) + 1))
  rw [lookup_sig_noteKey p1 steps1 hw1 i hi1, lookup_sig_noteKey p2 steps2 hw2 i hi2] at hn
  have hwt := hl (stepWeightKey ((i : Int) + 1))
  rw [lookup_sig_weightKey p1 steps1 hw1 i hi1, lookup_sig_weightKey p2 steps2 hw2 i hi2] at hwt
  refine ⟨by injection hn with h1 h2,
    by injection hwt with h1 h2; exact decInt_inj h1, ?_⟩
  intro name
  have hf := hl (stepFileKey ((i : Int) + 1) name)
  rw [lookup_sig_fileKey p1 steps1 hw1 i hi1 name,
    lookup_sig_fileKey p2 steps2 hw2 i hi2 name] at hf
  exact hf

/-- C5 counterexample: two problems differing in CreatedAt (by one
nanosecond, so the byte representations of the timestamps differ)
produce the same canonical encoding, because ComputeSignature rounds
timestamps to the second before formatting them (problem.go lines
149-150).  This refutes the claim that any single-byte change to the
timestamps changes the encoded string. -/
theorem signedData_subsecond_collision :
    exampleProblem1.CreatedAt ≠ exampleProblem2.CreatedAt ∧
    signedData exampleProblem1 [] = signedData exampleProblem2 [] :=
  ⟨by decide, by decide⟩

/-- C5 witness: the amended injectivity theorem applied at a concrete
well-formed one-step problem, with the hypotheses discharged by
evaluation. -/
theorem signedData_injective_witness :
    WFSteps [exampleStep1] ∧
    (exampleProblem1.ID = exampleProblem1.ID ∧
     exampleProblem1.Unique = exampleProblem1.Unique ∧
     exampleProblem1.Note = exampleProblem1.Note ∧
     exampleProblem1.ProblemType = exampleProblem1.ProblemType ∧
     exampleProblem1.Tags = exampleProblem1.Tags ∧
     exampleProblem1.Options = exampleProblem1.Options ∧
     roundSecond exampleProblem1.CreatedAt = roundSecond exampleProblem1.CreatedAt ∧
     roundSecond exampleProblem1.UpdatedAt = roundSecond exampleProblem1.UpdatedAt ∧
     [exampleStep1].length = [exampleStep1].length ∧
     (∀ i (h1 : i < [exampleStep1].length) (h2 : i < [exampleStep1].length),
       ([exampleStep1].get ⟨i, h1⟩).Note = ([exampleStep1].get ⟨i, h2⟩).Note ∧
       ([exampleStep1].get ⟨i, h1⟩).Weight = ([exampleStep1].get ⟨i, h2⟩).Weight ∧
       ∀ name, fileLookup name ([exampleStep1].get ⟨i, h1⟩).Files
         = fileLookup name ([exampleStep1].get ⟨i, h2⟩).Files)) := by
  have hw : WFSteps [exampleStep1] := by
    intro i hi
    have h0 : i = 0 := Nat.lt_one_iff.mp hi
    subst h0
    rfl
  exact ⟨hw, signedData_injective exampleProblem1 exampleProblem1
    [exampleStep1] [exampleStep1] hw hw rfl⟩

/-- C10: Problem.Normalize discards the per-step error results.  Its
success is characterised purely by the problem-level checks - trimmed
unique ID nonempty and fixed by url.QueryEscape, trimmed note nonempty,
at least one step, CreatedAt within [BeginningOfTime, now] and
UpdatedAt within [CreatedAt, now] - and never depends on any step note
or instruction build; concretely, a step whose note trims to empty
makes ProblemStep.Normalize fail, yet Problem.Normalize on a problem
whose step list is exactly that one step succeeds. -/
theorem normalize_discards_step_errors :
    (∀ now p steps,
      (problemNormalize now p steps).2 = none ↔
        (trimSpace p.Unique ≠ [] ∧
         queryEscape (trimSpace p.Unique) = trimSpace p.Unique ∧
         trimSpace p.Note ≠ [] ∧ steps ≠ [] ∧
         BeginningOfTime ≤ p.CreatedAt ∧ p.CreatedAt ≤ now ∧
         p.CreatedAt ≤ p.UpdatedAt ∧ p.UpdatedAt ≤ now))
    ∧ (stepNormalize 1 badStep).2 = some StepErr.missingNote
    ∧ (problemNormalize BeginningOfTime normProblem [badStep]).2 = none := by
  refine ⟨?_, by decide, by decide⟩
  intro now p steps
  simp only [problemNormalize]
  split_ifs with h1 h2 h3 h4 h5 h6
  · exact iff_of_false (by simp) (fun hc => hc.1 h1)
  · exact iff_of_false (by simp) (fun hc => h2 hc.2.1)
  · exact iff_of_false (by simp) (fun hc => hc.2.2.1 h3)
  · exact iff_of_false (by simp) (fun hc => hc.2.2.2.1 h4)
  · refine iff_of_false (by simp) (fun hc => ?_)
    have ha := hc.2.2.2.2.1
    have hb := hc.2.2.2.2.2.1
    omega
  · refine iff_of_false (by simp) (fun hc => ?_)
    have ha := hc.2.2.2.2.2.2.1
    have hb := hc.2.2.2.2.2.2.2
    omega
  · exact iff_of_true rfl
      ⟨h1, not_not.mp h2, h3, h4, by omega, by omega, by omega, by omega⟩

end CodeGrinder
